import Mathlib

/-!
# Boffin: verification of the synchronization core

A shallow embedding of the boffin repository's synchronization engine:
the file-history data model (`FileEvent`, `FileInfo` and its derived
accessors), the five hash/path matching passes of the diff engine in
`lib/diff.go`, the update action callbacks of `lib/update.go`, the
atomic save logic, the verify loop and the `.boffin` directory search.

Go slices of `*FileInfo` become `List FileInfo`; the passes that blank
out slice entries (`local[i] = nil`) operate on `List (Option FileInfo)`.
Go maps (`map[string][]*FileInfo`, `map[string][]int`, `map[string]*FileInfo`)
become association lists built in insertion order, which fixes one
iteration order for loops that Go leaves unspecified.  Nil-pointer
dereferences performed by the engine itself are modelled by `Except`:
a `.error` result is a run that panics.
-/

namespace Boffin

open scoped List

/-- One observation about a tracked file (`FileEvent` in `lib/boffin.go`):
repository-relative path, size, modification time and content checksum.
A deletion event has an empty checksum.  Times are modelled as integers
(`time.Time` values are only ever compared for equality). -/
structure FileEvent where
  path : String
  size : Int
  time : Int
  checksum : String
deriving DecidableEq, Repr

/-- A tracked file: its append-only event history (`FileInfo`). -/
structure FileInfo where
  history : List FileEvent
deriving DecidableEq, Repr

/-- The last event of the history that carries a non-empty checksum, if
any.  The accessors `Checksum`, `Path`, `Size` and `Time` in
`lib/boffin.go` each run the same backwards scan
(`for i := range fi.History { event := fi.History[len-1-i]; if event.Checksum != "" ... }`);
this is that scan, shared. -/
def FileInfo.lastReal (fi : FileInfo) : Option FileEvent :=
  fi.history.reverse.find? (fun e => e.checksum != "")

/-- `FileInfo.Checksum` (`lib/boffin.go`): checksum of the last event
whose checksum is non-empty, or `""` if there is none. -/
def FileInfo.Checksum (fi : FileInfo) : String :=
  (fi.lastReal.map (·.checksum)).getD ""

/-- `FileInfo.Checksum` of the later draft (`part_003`):
`fi.History[len(fi.History)-1].Checksum`, the literal last event's
checksum.  (The Go code indexes unconditionally and would panic on an
empty history; the model returns `""` there.) -/
def FileInfo.checksumLast (fi : FileInfo) : String :=
  (fi.history.getLast?.map (·.checksum)).getD ""

/-- `FileInfo.Path`: path of the last event with a non-empty checksum. -/
def FileInfo.Path (fi : FileInfo) : String :=
  (fi.lastReal.map (·.path)).getD ""

/-- `FileInfo.Size`: size of the last event with a non-empty checksum. -/
def FileInfo.Size (fi : FileInfo) : Int :=
  (fi.lastReal.map (·.size)).getD 0

/-- `FileInfo.Time`: time of the last event with a non-empty checksum. -/
def FileInfo.Time (fi : FileInfo) : Int :=
  (fi.lastReal.map (·.time)).getD 0

/-- `FileInfo.IsDeleted`: empty history, or the last event has an empty
checksum. -/
def FileInfo.IsDeleted (fi : FileInfo) : Bool :=
  match fi.history.getLast? with
  | none => true
  | some e => e.checksum == ""

/-- `FileInfo.inheritsFrom`: some event of the history has the given
checksum. -/
def FileInfo.inheritsFrom (fi : FileInfo) (checksum : String) : Bool :=
  fi.history.any (fun e => e.checksum == checksum)

/-- `FileInfo.MarkDeleted` (`part_003`): append a deletion event (current
path, empty checksum, zero size) unless already deleted.  The wall-clock
deletion time is passed in. -/
def FileInfo.MarkDeleted (fi : FileInfo) (now : Int) : FileInfo :=
  if fi.IsDeleted then fi
  else { history := fi.history ++ [{ path := fi.Path, size := 0, time := now, checksum := "" }] }

/-- The append step of `FileInfo.update` (`lib/boffin.go` lines 168-176),
after the hash has been computed: append a change event unless the last
event already carries the same checksum. -/
def FileInfo.updateAppend (fi : FileInfo) (relPath : String) (size time : Int)
    (hashStr : String) : FileInfo :=
  match fi.history.getLast? with
  | none => { history := fi.history ++ [{ path := relPath, size := size, time := time, checksum := hashStr }] }
  | some last =>
    if hashStr != last.checksum then
      { history := fi.history ++ [{ path := relPath, size := size, time := time, checksum := hashStr }] }
    else fi

/-! ## Map models

Go maps become association lists in insertion order.  `bucketInsert`
models `fileMap[k] = append(fileMap[k], f)`, `idxInsertOnce` the
"ensure file is added only once" insertion of `filesToHistoricHashMap`,
`pathMapInsert` the overwriting `fileMap[k] = f` of `filesToPathMap`. -/

/-- Append `f` to the bucket of key `k`, creating the bucket at the end
of the list if the key is new. -/
def bucketInsert (m : List (String × List FileInfo)) (k : String) (f : FileInfo) :
    List (String × List FileInfo) :=
  match m with
  | [] => [(k, [f])]
  | (k', fs) :: rest =>
    if k' = k then (k', fs ++ [f]) :: rest else (k', fs) :: bucketInsert rest k f

/-- Lookup in an association list. -/
def lookupKey {β : Type} (m : List (String × β)) (k : String) : Option β :=
  match m with
  | [] => none
  | (k', v) :: rest => if k' = k then some v else lookupKey rest k

/-- Remove a key from an association list (`delete(m, k)`). -/
def eraseKey {β : Type} (m : List (String × β)) (k : String) : List (String × β) :=
  match m with
  | [] => []
  | (k', v) :: rest => if k' = k then rest else (k', v) :: eraseKey rest k

/-- `FilesToHashMap` (`lib/diff.go`): bucket the non-deleted files by
current checksum, in file order. -/
def FilesToHashMap (files : List FileInfo) : List (String × List FileInfo) :=
  files.foldl (fun m f => if f.IsDeleted then m else bucketInsert m f.Checksum f) []

/-- Add index `i` to the bucket of key `k` unless already present there;
create the bucket at the end if the key is new. -/
def idxInsertOnce (m : List (String × List Nat)) (k : String) (i : Nat) :
    List (String × List Nat) :=
  match m with
  | [] => [(k, [i])]
  | (k', is) :: rest =>
    if k' = k then (if i ∈ is then (k', is) :: rest else (k', is ++ [i]) :: rest)
    else (k', is) :: idxInsertOnce rest k i

/-- Insert all non-empty checksums of one file's history for file index `i`. -/
def histInsertEvents (m : List (String × List Nat)) (i : Nat) (events : List FileEvent) :
    List (String × List Nat) :=
  events.foldl (fun m e => if e.checksum = "" then m else idxInsertOnce m e.checksum i) m

/-- Walk the files with their indices. -/
def histMapGo (files : List FileInfo) (i : Nat) (m : List (String × List Nat)) :
    List (String × List Nat) :=
  match files with
  | [] => m
  | f :: fs => histMapGo fs (i + 1) (histInsertEvents m i f.history)

/-- `filesToHistoricHashMap` (`lib/diff.go`): map every non-empty
historical checksum to the indices of the files whose history contains
it, each file listed at most once per checksum. -/
def filesToHistoricHashMap (files : List FileInfo) : List (String × List Nat) :=
  histMapGo files 0 []

/-- `filesToPathMap` (`lib/diff.go`): current path to file, non-deleted
files only; a later file with the same path overwrites the earlier. -/
def pathMapInsert (m : List (String × FileInfo)) (k : String) (f : FileInfo) :
    List (String × FileInfo) :=
  match m with
  | [] => [(k, f)]
  | (k', g) :: rest =>
    if k' = k then (k', f) :: rest else (k', g) :: pathMapInsert rest k f

def filesToPathMap (files : List FileInfo) : List (String × FileInfo) :=
  files.foldl (fun m f => if f.IsDeleted then m else pathMapInsert m f.Path f) []

/-! ## The diff action stream

One constructor per callback of the `DiffAction` interface.  In pass 3
(`matchCurrentRemoteToHistoricalLocalUsingHashes`) the engine can pass a
slice entry that it has already blanked to `nil`, so the local argument
of `localChanged`, the remote argument of `remoteChanged` and the
members of `conflictHash` lists are `Option FileInfo` (`none` is a Go
nil pointer). -/

inductive DiffEvent where
  | unchanged (l r : FileInfo)
  | metaDataChanged (l r : FileInfo)
  | moved (l r : FileInfo)
  | localOnly (l : FileInfo)
  | localOld (l : FileInfo)
  | remoteOnly (r : FileInfo)
  | remoteOld (r : FileInfo)
  | localDeleted (l r : FileInfo)
  | remoteDeleted (l r : FileInfo)
  | localChanged (l : Option FileInfo) (r : FileInfo)
  | remoteChanged (l : FileInfo) (r : Option FileInfo)
  | conflictHash (ls rs : List (Option FileInfo))
  | conflictPath (l r : FileInfo)
deriving DecidableEq, Repr

/-- The local-side files a callback mentions (nil pointers dropped). -/
def evLocals : DiffEvent → List FileInfo
  | .unchanged l _ => [l]
  | .metaDataChanged l _ => [l]
  | .moved l _ => [l]
  | .localOnly l => [l]
  | .localOld l => [l]
  | .remoteOnly _ => []
  | .remoteOld _ => []
  | .localDeleted l _ => [l]
  | .remoteDeleted l _ => [l]
  | .localChanged l _ => l.toList
  | .remoteChanged l _ => [l]
  | .conflictHash ls _ => ls.reduceOption
  | .conflictPath l _ => [l]

/-- The remote-side files a callback mentions. -/
def evRemotes : DiffEvent → List FileInfo
  | .unchanged _ r => [r]
  | .metaDataChanged _ r => [r]
  | .moved _ r => [r]
  | .localOnly _ => []
  | .localOld _ => []
  | .remoteOnly r => [r]
  | .remoteOld r => [r]
  | .localDeleted _ r => [r]
  | .remoteDeleted _ r => [r]
  | .localChanged _ r => [r]
  | .remoteChanged _ r => r.toList
  | .conflictHash _ rs => rs.reduceOption
  | .conflictPath _ r => [r]

def evsLocals (evs : List DiffEvent) : List FileInfo := evs.flatMap evLocals
def evsRemotes (evs : List DiffEvent) : List FileInfo := evs.flatMap evRemotes

/-! ## Pass 1: path + current-hash equality

Go compares paths with `strings.Compare`, byte-wise over UTF-8; for
valid UTF-8 that order coincides with code-point order, computed here
structurally over the strings' character lists (Lean's own `String.lt`
is equivalent but does not reduce inside the kernel). -/

/-- Lexicographic strict order on character lists. -/
def charsLt : List Char → List Char → Bool
  | [], [] => false
  | [], _ :: _ => true
  | _ :: _, [] => false
  | a :: as, b :: bs => if a < b then true else if b < a then false else charsLt as bs

/-- `strings.Compare(a, b) < 0`. -/
def strLt (a b : String) : Bool := charsLt a.data b.data


/-- The inner merge loop of `matchRemoteToLocalUsingPathAndCurrentHashes`
with the local head `l` fixed: `f` continues the merge with the local
tail `ls`.  (The Go loop advances two cursors; splitting the recursion
this way keeps it structural.) -/
def pass1Inner (l : FileInfo) (ls : List FileInfo)
    (f : List FileInfo → List DiffEvent × List FileInfo × List FileInfo) :
    List FileInfo → List DiffEvent × List FileInfo × List FileInfo
  | [] => ([], l :: ls, [])
  | r :: rs =>
    if strLt l.Path r.Path then
      let next := f (r :: rs)
      (next.1, l :: next.2.1, next.2.2)
    else if strLt r.Path l.Path then
      let next := pass1Inner l ls f rs
      (next.1, next.2.1, r :: next.2.2)
    else
      let next := f rs
      if !l.IsDeleted && !r.IsDeleted && l.Checksum == r.Checksum then
        if l.Time != r.Time then
          (.metaDataChanged l r :: next.1, next.2.1, next.2.2)
        else
          (.unchanged l r :: next.1, next.2.1, next.2.2)
      else
        (next.1, l :: next.2.1, r :: next.2.2)

/-- The merge loop of `matchRemoteToLocalUsingPathAndCurrentHashes`:
both inputs sorted by current path; on equal paths emit `Unchanged` /
`MetaDataChanged` when neither side is deleted and the current checksums
match, otherwise pass both through; drain the residue of either side. -/
def pass1Merge : List FileInfo → List FileInfo →
    List DiffEvent × List FileInfo × List FileInfo
  | [], rs => ([], [], rs)
  | l :: ls, rs => pass1Inner l ls (pass1Merge ls) rs

/-- `sort.Slice(files, func(i, j) { return files[i].Path() < files[j].Path() })`. -/
def sortByPath (files : List FileInfo) : List FileInfo :=
  files.insertionSort (fun a b => strLt b.Path a.Path = false)

def matchRemoteToLocalUsingPathAndCurrentHashes (locl remote : List FileInfo) :
    List DiffEvent × List FileInfo × List FileInfo :=
  pass1Merge (sortByPath locl) (sortByPath remote)

/-! ## Pass 2: current hash, path-insensitive -/

/-- Loop of `matchRemoteToLocalUsingCurrentHashes` over the local hash
buckets, consuming matched keys of the remote map; the base case drains
the unmatched remote buckets. -/
def pass2Go : List (String × List FileInfo) → List (String × List FileInfo) →
    List DiffEvent × List FileInfo × List FileInfo
  | [], rmap => ([], [], rmap.flatMap (·.2))
  | (h, lfs) :: rest, rmap =>
    match lookupKey rmap h with
    | some rfs =>
      let next := pass2Go rest (eraseKey rmap h)
      match lfs, rfs with
      | [lf], [rf] => (.moved lf rf :: next.1, next.2.1, next.2.2)
      | _, _ => (next.1, lfs ++ next.2.1, rfs ++ next.2.2)
    | none =>
      let next := pass2Go rest rmap
      (next.1, lfs ++ next.2.1, next.2.2)

def matchRemoteToLocalUsingCurrentHashes (locl remote : List FileInfo) :
    List DiffEvent × List FileInfo × List FileInfo :=
  let next := pass2Go (FilesToHashMap locl) (FilesToHashMap remote)
  (next.1, locl.filter (·.IsDeleted) ++ next.2.1, remote.filter (·.IsDeleted) ++ next.2.2)

/-! ## Passes 3 and 4: current hash against historical hashes

The Go code blanks consumed entries of the historical side's slice with
`local[i] = nil` and sweeps the survivors at the end; the conflict
branch collects `local[idx]` without a nil guard. -/

/-- Collect the entries at the given indices (with no nil guard) and
blank them, in order. -/
def collectAll : List Nat → List (Option FileInfo) →
    List (Option FileInfo) × List (Option FileInfo)
  | [], arr => ([], arr)
  | i :: is, arr =>
    let v := arr.getD i none
    let next := collectAll is (arr.set i none)
    (v :: next.1, next.2)

/-- Collect only the non-nil entries at the given indices and blank
them, in order (the nil-guarded collection of pass 5). -/
def collectSome : List Nat → List (Option FileInfo) →
    List FileInfo × List (Option FileInfo)
  | [], arr => ([], arr)
  | i :: is, arr =>
    match arr.getD i none with
    | none => collectSome is arr
    | some f =>
      let next := collectSome is (arr.set i none)
      (f :: next.1, next.2)

/-- Loop of `matchCurrentRemoteToHistoricalLocalUsingHashes` over the
remote current-hash buckets against the local historical map, blanking
consumed local array slots; unmatched remote buckets pass through. -/
def pass3Go : List (String × List FileInfo) → List (String × List Nat) →
    List (Option FileInfo) →
    List DiffEvent × List (Option FileInfo) × List FileInfo
  | [], _, arr => ([], arr, [])
  | (h, rfs) :: rest, lmap, arr =>
    match lookupKey lmap h with
    | some is =>
      match is, rfs with
      | [i], [rf] =>
        let next := pass3Go rest lmap (arr.set i none)
        (.localChanged (arr.getD i none) rf :: next.1, next.2.1, next.2.2)
      | is, rfs =>
        let c := collectAll is arr
        let next := pass3Go rest lmap c.2
        (.conflictHash c.1 (rfs.map some) :: next.1, next.2.1, next.2.2)
    | none =>
      let next := pass3Go rest lmap arr
      (next.1, next.2.1, rfs ++ next.2.2)

def matchCurrentRemoteToHistoricalLocalUsingHashes (locl remote : List FileInfo) :
    List DiffEvent × List FileInfo × List FileInfo :=
  let next := pass3Go (FilesToHashMap remote) (filesToHistoricHashMap locl) (locl.map some)
  (next.1, next.2.1.reduceOption, remote.filter (·.IsDeleted) ++ next.2.2)

/-- Loop of `matchCurrentLocalToHistoricalRemoteUsingHashed`, the mirror
of pass 3: local current-hash buckets against the remote historical map. -/
def pass4Go : List (String × List FileInfo) → List (String × List Nat) →
    List (Option FileInfo) →
    List DiffEvent × List FileInfo × List (Option FileInfo)
  | [], _, arr => ([], [], arr)
  | (h, lfs) :: rest, rmap, arr =>
    match lookupKey rmap h with
    | some is =>
      match is, lfs with
      | [i], [lf] =>
        let next := pass4Go rest rmap (arr.set i none)
        (.remoteChanged lf (arr.getD i none) :: next.1, next.2.1, next.2.2)
      | is, lfs =>
        let c := collectAll is arr
        let next := pass4Go rest rmap c.2
        (.conflictHash (lfs.map some) c.1 :: next.1, next.2.1, next.2.2)
    | none =>
      let next := pass4Go rest rmap arr
      (next.1, lfs ++ next.2.1, next.2.2)

def matchCurrentLocalToHistoricalRemoteUsingHashed (locl remote : List FileInfo) :
    List DiffEvent × List FileInfo × List FileInfo :=
  let next := pass4Go (FilesToHashMap locl) (filesToHistoricHashMap remote) (remote.map some)
  (next.1, locl.filter (·.IsDeleted) ++ next.2.1, next.2.2.reduceOption)

/-! ## Pass 5: historical against historical

`matchUsingHistoricalHashes` dereferences `local[i]` and `remote[j]` in
the both-deleted test without nil guards; a blanked entry there is a
nil-pointer panic, modelled as `.error`.  The `&&` short-circuits: when
`local[i]` is non-nil but not deleted, `remote[j]` is never touched. -/

def nilPanic : String := "runtime error: invalid memory address or nil pointer dereference"

/-- The fall-through conflict collection of `matchUsingHistoricalHashes`:
gather the surviving files at the matched indices on both sides (with
nil guards) and emit one `ConflictHash`. -/
def pass5Conflict (is js : List Nat) (larr rarr : List (Option FileInfo)) :
    Except String (List DiffEvent × List (Option FileInfo) × List (Option FileInfo)) :=
  let lc := collectSome is larr
  let rc := collectSome js rarr
  .ok ([.conflictHash (lc.1.map some) (rc.1.map some)], lc.2, rc.2)

/-- Process one bucket of the local historical map.  In the 1-to-1 case
the Go code evaluates `local[i].IsDeleted() && remote[j].IsDeleted()`:
a blanked entry is a nil-pointer panic, and the `&&` short-circuits, so
`remote[j]` is only dereferenced when `local[i]` is deleted.  Every
non-`Unchanged`, non-panicking outcome falls through to the conflict
collection. -/
def pass5Step (is : List Nat) (js : Option (List Nat))
    (larr rarr : List (Option FileInfo)) :
    Except String (List DiffEvent × List (Option FileInfo) × List (Option FileInfo)) :=
  match js with
  | none => .ok ([], larr, rarr)
  | some js =>
    match is, js with
    | [i], [j] =>
      match larr.getD i none with
      | none => .error nilPanic
      | some lf =>
        if lf.IsDeleted then
          match rarr.getD j none with
          | none => .error nilPanic
          | some rf =>
            if rf.IsDeleted then
              .ok ([.unchanged lf rf], larr.set i none, rarr.set j none)
            else
              pass5Conflict [i] [j] larr rarr
        else
          pass5Conflict [i] [j] larr rarr
    | is, js => pass5Conflict is js larr rarr

/-- Loop of `matchUsingHistoricalHashes` over the local historical
buckets. -/
def pass5Go : List (String × List Nat) → List (String × List Nat) →
    List (Option FileInfo) → List (Option FileInfo) →
    Except String (List DiffEvent × List (Option FileInfo) × List (Option FileInfo))
  | [], _, larr, rarr => .ok ([], larr, rarr)
  | (h, is) :: rest, rmap, larr, rarr =>
    match pass5Step is (lookupKey rmap h) larr rarr with
    | .error e => .error e
    | .ok (evs, larr', rarr') =>
      match pass5Go rest rmap larr' rarr' with
      | .error e => .error e
      | .ok (evs', la, ra) => .ok (evs ++ evs', la, ra)

def matchUsingHistoricalHashes (locl remote : List FileInfo) :
    Except String (List DiffEvent × List FileInfo × List FileInfo) :=
  match pass5Go (filesToHistoricHashMap locl) (filesToHistoricHashMap remote)
      (locl.map some) (remote.map some) with
  | .error e => .error e
  | .ok (evs, la, ra) => .ok (evs, la.reduceOption, ra.reduceOption)

/-! ## Pass 6: same current path, different histories -/

def pass6Go : List (String × FileInfo) → List (String × FileInfo) →
    List DiffEvent × List FileInfo × List FileInfo
  | [], rmap => ([], [], rmap.map (·.2))
  | (p, lf) :: rest, rmap =>
    match lookupKey rmap p with
    | some rf =>
      let next := pass6Go rest (eraseKey rmap p)
      (.conflictPath lf rf :: next.1, next.2.1, next.2.2)
    | none =>
      let next := pass6Go rest rmap
      (next.1, lf :: next.2.1, next.2.2)

def matchUsingPath (locl remote : List FileInfo) :
    List DiffEvent × List FileInfo × List FileInfo :=
  let next := pass6Go (filesToPathMap locl) (filesToPathMap remote)
  (next.1, locl.filter (·.IsDeleted) ++ next.2.1, remote.filter (·.IsDeleted) ++ next.2.2)

/-! ## The full diff -/

/-- The terminal singleton callbacks at the end of `Diff`. -/
def terminalEvents (locl remote : List FileInfo) : List DiffEvent :=
  locl.map (fun f => if f.IsDeleted then .localOld f else .localOnly f) ++
  remote.map (fun f => if f.IsDeleted then .remoteOld f else .remoteOnly f)

/-- `Diff` (`lib/diff.go`): run the six passes in order, threading the
residuals, then emit the terminal singletons.  A `.error` is a run that
dies in pass 5's nil dereference. -/
def Diff (locl remote : List FileInfo) : Except String (List DiffEvent) :=
  let p1 := matchRemoteToLocalUsingPathAndCurrentHashes locl remote
  let p2 := matchRemoteToLocalUsingCurrentHashes p1.2.1 p1.2.2
  let p3 := matchCurrentRemoteToHistoricalLocalUsingHashes p2.2.1 p2.2.2
  let p4 := matchCurrentLocalToHistoricalRemoteUsingHashed p3.2.1 p3.2.2
  match matchUsingHistoricalHashes p4.2.1 p4.2.2 with
  | .error e => .error e
  | .ok p5 =>
    let p6 := matchUsingPath p5.2.1 p5.2.2
    .ok (p1.1 ++ p2.1 ++ p3.1 ++ p4.1 ++ p5.1 ++ p6.1 ++ terminalEvents p6.2.1 p6.2.2)

/-! ## The update action (`lib/update.go`, `updateAction`)

The callbacks either mutate the repository, log, or panic.  Two models:
`updateActionOutcome` records whether a callback aborts the run (the
handlers print `file.Path()`, which itself panics on a nil pointer),
and the `updateActionMoved` / `updateActionMetaDataChanged` /
`updateActionRemoteChanged` functions give the mutated local history. -/

inductive UAOutcome where
  | proceed
  | panic (msg : String)
deriving DecidableEq, Repr

def UAOutcome.isPanic : UAOutcome → Bool
  | .proceed => false
  | .panic _ => true

def localDeletedMsg (l : FileInfo) : String :=
  "local deleted; should never happen for updateAction: " ++ l.Path

def remoteDeletedMsg : String := "remote deleted should never happen for updateAction"

/-- Whether each callback of `updateAction` completes or aborts the run.
`LocalDeleted` calls `log.Panicf`, `RemoteDeleted` calls `panic`;
`LocalChanged` only prints a `WARNING` line (its `panic` is commented
out).  Handlers that print `file.Path()` die on a nil pointer. -/
def updateActionOutcome : DiffEvent → UAOutcome
  | .unchanged _ _ => .proceed
  | .metaDataChanged _ _ => .proceed
  | .moved _ _ => .proceed
  | .localOnly _ => .proceed
  | .localOld _ => .proceed
  | .remoteOnly _ => .proceed
  | .remoteOld _ => .proceed
  | .localDeleted l _ => .panic (localDeletedMsg l)
  | .remoteDeleted _ _ => .panic remoteDeletedMsg
  | .localChanged l _ =>
    match l with
    | none => .panic nilPanic
    | some _ => .proceed
  | .remoteChanged _ _ => .proceed
  | .conflictHash ls rs =>
    if (ls ++ rs).all (·.isSome) then .proceed else .panic nilPanic
  | .conflictPath _ _ => .proceed

/-- `updateAction.Moved`: `localFile.History = append(localFile.History, remoteFile.History...)`. -/
def updateActionMoved (localFile remoteFile : FileInfo) : FileInfo :=
  { history := localFile.history ++ remoteFile.history }

/-- `updateAction.MetaDataChanged`: the same verbatim history append. -/
def updateActionMetaDataChanged (localFile remoteFile : FileInfo) : FileInfo :=
  { history := localFile.history ++ remoteFile.history }

/-- `updateAction.RemoteChanged`: append one event with the remote's
current state. -/
def updateActionRemoteChanged (localFile remoteFile : FileInfo) : FileInfo :=
  { history := localFile.history ++
      [{ path := remoteFile.Path, size := remoteFile.Size, time := remoteFile.Time,
         checksum := remoteFile.Checksum }] }

/-- The invariant of §3 of the spec, as a computation: no two
consecutive events of a history carry the same checksum. -/
def noConsecDupB : List FileEvent → Bool
  | [] => true
  | [_] => true
  | a :: b :: t => (a.checksum != b.checksum) && noConsecDupB (b :: t)

/-- The invariant of §3 of the spec: no two consecutive events of a
history carry the same checksum. -/
def NoConsecDup (h : List FileEvent) : Prop := noConsecDupB h = true

instance (h : List FileEvent) : Decidable (NoConsecDup h) :=
  inferInstanceAs (Decidable (noConsecDupB h = true))

theorem noConsecDup_iff_chain (h : List FileEvent) :
    NoConsecDup h ↔ List.Chain' (fun a b => a.checksum ≠ b.checksum) h := by
  induction h with
  | nil => simp [NoConsecDup, noConsecDupB]
  | cons a t ih =>
    cases t with
    | nil => simp [NoConsecDup, noConsecDupB]
    | cons b t' =>
      rw [List.chain'_cons, ← ih]
      simp [NoConsecDup, noConsecDupB, bne_iff_ne]

/-! ## Save (`lib/boffin.go`, `db.Save`)

The two files `Save` touches are modelled by their optional contents.
The deferred `os.Remove(newFilename)` runs on every exit path; after a
successful rename it finds nothing to remove.  Injected failures stand
for the three fallible system calls. -/

structure SaveFs where
  filesJson : Option String
  filesJsonTmp : Option String
deriving DecidableEq, Repr

structure SaveEnv where
  openFails : Bool
  removeFails : Bool
  renameFails : Bool
deriving DecidableEq, Repr

/-- The deferred `os.Remove(newFilename)`. -/
def saveCleanupTmp (fs : SaveFs) : SaveFs := { fs with filesJsonTmp := none }

def saveCriticalMsg : String :=
  "critical error; failed to rename files.json.tmp to files.json"

/-- `db.Save`: write the serialized repository to `files.json.tmp`,
remove any existing `files.json` (a missing file is not an error),
rename the temporary over it; the deferred cleanup removes the
temporary on every exit. -/
def save (env : SaveEnv) (data : String) (fs : SaveFs) : Except String Unit × SaveFs :=
  if env.openFails then
    (.error "open files.json.tmp failed", saveCleanupTmp fs)
  else
    let fs1 : SaveFs := { fs with filesJsonTmp := some data }
    if fs1.filesJson.isSome && env.removeFails then
      (.error "failed to overwrite files.json", saveCleanupTmp fs1)
    else
      let fs2 : SaveFs := { fs1 with filesJson := none }
      if env.renameFails then
        (.error saveCriticalMsg, saveCleanupTmp fs2)
      else
        let fs3 : SaveFs := { filesJson := fs2.filesJsonTmp, filesJsonTmp := none }
        (.ok (), saveCleanupTmp fs3)

/-! ## Verify (`cmd`, the live `verifyCmd.Run`)

For each non-deleted stored file recompute the checksum of
`base-dir/current-path` (the recomputation is an oracle from the
current path, `lib.CalculateChecksum`), report OK / mismatch / error,
and exit 2 on any I/O error, 1 on any mismatch, 0 otherwise. -/

inductive VerifyReport where
  | okFile (p : String)
  | mismatch (p : String)
  | ioError (msg : String)
deriving DecidableEq, Repr

/-- The verify loop: reports in file order plus the `gotError` and
`gotMismatch` flags. -/
def verifyGo (hash : String → Except String String) :
    List FileInfo → List VerifyReport × Bool × Bool
  | [] => ([], false, false)
  | f :: fs =>
    let next := verifyGo hash fs
    if f.IsDeleted then next
    else
      match hash f.Path with
      | .error e => (.ioError e :: next.1, true, next.2.2)
      | .ok c =>
        if c != f.Checksum then (.mismatch f.Path :: next.1, next.2.1, true)
        else (.okFile f.Path :: next.1, next.2.1, next.2.2)

/-- The process exit code of `verify`. -/
def verifyExitCode (hash : String → Except String String) (files : List FileInfo) : Nat :=
  let r := verifyGo hash files
  if r.2.1 then 2 else if r.2.2 then 1 else 0

/-! ## `FindBoffinDir` (`lib/boffin.go`)

A cleaned absolute directory is its list of components below the root
(`/` is `[]`); `filepath.Dir` drops the last component.  The unbounded
`for true` loop is modelled with fuel: `none` is a run that has not
terminated within the fuel. -/

def findLoop (hasBoffin : List String → Bool) : Nat → List String →
    Option (Except String (List String))
  | 0, _ => none
  | fuel + 1, dir =>
    if hasBoffin dir then some (.ok (dir ++ [".boffin"]))
    else if dir = [] then some (.error "could not find .boffin dir")
    else findLoop hasBoffin fuel dir.dropLast

/-- `FindBoffinDir` with enough fuel for every ancestor plus the root. -/
def FindBoffinDir (hasBoffin : List String → Bool) (dir : List String) :
    Option (Except String (List String)) :=
  findLoop hasBoffin (dir.length + 1) dir

/-! ## The spec's reading of the current-checksum accessor

Written from the words of §3 of the spec ("checksum of the last event
whose checksum is non-empty; empty if none"), to be compared with the
implementations `FileInfo.Checksum` and `FileInfo.checksumLast`. -/

def specCurrentChecksum (fi : FileInfo) : String :=
  (((fi.history.filter (fun e => e.checksum != "")).getLast?).map (·.checksum)).getD ""

/-! ## Claims as stated

Each `claimCn` is the frozen claim, formalized literally, so that its
counterexample can refute it at a concrete input. -/

/-- C4 as stated: in the context of a `Moved` outcome (local not
deleted, the observed current checksum equal to the local current
checksum), the update action's history append preserves the
no-consecutive-duplicate-checksum invariant on the mutated local file. -/
def claimC4 : Prop :=
  ∀ l r : FileInfo, l.IsDeleted = false → r.Checksum = l.Checksum →
    NoConsecDup l.history → NoConsecDup r.history →
    NoConsecDup (updateActionMoved l r).history

/-- C6 as stated: on success `Save` leaves no temporary, and when the
rename fails after the old `files.json` was removed, the error is the
critical one and the repository is still recoverable from the
`files.json.tmp` left on disk. -/
def claimC6 : Prop :=
  ∀ (env : SaveEnv) (data : String) (fs : SaveFs),
    ((save env data fs).1 = .ok () → (save env data fs).2.filesJsonTmp = none) ∧
    (env.openFails = false → env.renameFails = true →
      (fs.filesJson.isSome && env.removeFails) = false →
      (save env data fs).1 = .error saveCriticalMsg ∧
      (save env data fs).2.filesJsonTmp = some data)

/-- C7 as stated: in update context the `LocalChanged`, `RemoteDeleted`,
`LocalDeleted` and general conflict callbacks all abort the run. -/
def claimC7 : Prop :=
  (∀ l r : FileInfo, (updateActionOutcome (.localChanged (some l) r)).isPanic = true) ∧
  (∀ l r : FileInfo, (updateActionOutcome (.remoteDeleted l r)).isPanic = true) ∧
  (∀ l r : FileInfo, (updateActionOutcome (.localDeleted l r)).isPanic = true) ∧
  (∀ ls rs : List (Option FileInfo), (updateActionOutcome (.conflictHash ls rs)).isPanic = true) ∧
  (∀ l r : FileInfo, (updateActionOutcome (.conflictPath l r)).isPanic = true)

/-- C8 as stated: both current-checksum accessors return the checksum of
the last event whose checksum is non-empty (empty if none). -/
def claimC8 : Prop :=
  (∀ fi : FileInfo, fi.Checksum = specCurrentChecksum fi) ∧
  (∀ fi : FileInfo, fi.checksumLast = specCurrentChecksum fi)

/-! ## Helper lemmas for the file-history model -/

theorem isDeleted_false_getLast {fi : FileInfo} (h : fi.IsDeleted = false) :
    ∃ e, fi.history.getLast? = some e ∧ e.checksum ≠ "" := by
  unfold FileInfo.IsDeleted at h
  cases hl : fi.history.getLast? with
  | none => rw [hl] at h; simp at h
  | some e =>
    rw [hl] at h
    exact ⟨e, rfl, by simpa using h⟩

theorem noConsecDup_append_singleton {h : List FileEvent} {e : FileEvent}
    (hh : NoConsecDup h)
    (hlast : ∀ x, h.getLast? = some x → x.checksum ≠ e.checksum) :
    NoConsecDup (h ++ [e]) := by
  rw [noConsecDup_iff_chain] at *
  rw [List.chain'_append]
  refine ⟨hh, List.chain'_singleton e, ?_⟩
  intro x hx y hy
  simp at hy
  subst hy
  exact hlast x hx

/-- Reversed `find?` is `getLast?` of the filtered list: the shared
backwards scan of the accessors agrees with the spec's "last event whose
checksum is non-empty". -/
theorem reverse_find?_eq_filter_getLast? (p : FileEvent → Bool) :
    ∀ l : List FileEvent, l.reverse.find? p = (l.filter p).getLast? := by
  intro l
  induction l using List.reverseRecOn with
  | nil => rfl
  | append_singleton ys y ih =>
    rw [List.reverse_append, List.filter_append, List.filter_singleton,
      List.reverse_singleton, List.singleton_append, List.find?_cons]
    cases hp : p y
    · simp only [cond_false, List.append_nil]
      exact ih
    · simp only [cond_true, List.getLast?_concat]

/-! ## Concrete repositories used by counterexamples and witnesses -/

/-- A deleted file whose single historical checksum is `"H"`. -/
def exDelH : FileInfo := ⟨[⟨"p", 1, 1, "H"⟩, ⟨"p", 0, 2, ""⟩]⟩

/-- A file at path `"a"` with content hash `"H"`. -/
def movedLocalEx : FileInfo := ⟨[⟨"a", 1, 1, "H"⟩]⟩

/-- The same content observed at path `"b"`. -/
def movedRemoteEx : FileInfo := ⟨[⟨"b", 1, 2, "H"⟩]⟩

def saveEnvRenameFail : SaveEnv := ⟨false, false, true⟩

def saveFsOld : SaveFs := ⟨some "old", none⟩

/-! ## C4: the no-consecutive-duplicate-checksum invariant -/

/-- C4, counterexample: renaming an unchanged file produces a `Moved`
outcome whose handler appends the observed event verbatim, yielding a
history with two consecutive events carrying checksum `"H"`. -/
theorem C4_counterexample : ¬ claimC4 := by
  intro h
  exact absurd (h movedLocalEx movedRemoteEx (by decide) (by decide) (by decide) (by decide))
    (by decide)

/-- C4, amended: the append step of `FileInfo.update` and `MarkDeleted`
preserve the invariant that no two consecutive events share a checksum,
but the update action's `Moved` handler concatenates the observed
history verbatim, so the invariant does not hold across all mutating
operations. -/
theorem C4_theorem :
    (∀ (fi : FileInfo) (p : String) (s t : Int) (h : String),
      NoConsecDup fi.history → NoConsecDup (fi.updateAppend p s t h).history) ∧
    (∀ (fi : FileInfo) (now : Int),
      NoConsecDup fi.history → NoConsecDup (fi.MarkDeleted now).history) ∧
    (∀ l r : FileInfo, (updateActionMoved l r).history = l.history ++ r.history) := by
  refine ⟨?_, ?_, fun l r => rfl⟩
  · intro fi p s t h hnd
    unfold FileInfo.updateAppend
    split
    · next hl =>
      have hnil : fi.history = [] := by simpa using hl
      simp only [hnil, List.nil_append]
      rfl
    · next last hl =>
      split
      · next hne =>
        refine noConsecDup_append_singleton hnd (fun x hx => ?_)
        rw [hl] at hx
        cases hx
        intro hc
        simp [hc] at hne
      · exact hnd
  · intro fi now hnd
    unfold FileInfo.MarkDeleted
    split
    · exact hnd
    · next hd =>
      obtain ⟨e, hl, hne⟩ := isDeleted_false_getLast (by simpa using hd)
      refine noConsecDup_append_singleton hnd (fun x hx => ?_)
      rw [hl] at hx
      cases hx
      simpa using hne

/-- C4, witness for the amended theorem at concrete inputs. -/
theorem C4_witness :
    NoConsecDup movedLocalEx.history ∧
    NoConsecDup (movedLocalEx.updateAppend "a" 1 2 "H2").history ∧
    NoConsecDup (movedLocalEx.MarkDeleted 5).history :=
  ⟨by decide, C4_theorem.1 movedLocalEx "a" 1 2 "H2" (by decide),
    C4_theorem.2.1 movedLocalEx 5 (by decide)⟩

/-! ## C6: atomicity of Save -/

/-- C6, counterexample: when the rename fails after the old `files.json`
was removed, the deferred cleanup deletes `files.json.tmp`, so the
state is not recoverable from a `.tmp` file left on disk. -/
theorem C6_counterexample : ¬ claimC6 := by
  intro h
  have := (h saveEnvRenameFail "new" saveFsOld).2 rfl rfl (by decide)
  exact absurd this.2 (by decide)

/-- C6, amended: on success no `files.json.tmp` remains and `files.json`
holds the new data; when the rename fails after the old file was
removed, the error is the critical one but the deferred cleanup removes
the temporary as well, leaving neither file; when removing the old file
fails, the old `files.json` is untouched. -/
theorem C6_theorem : ∀ (env : SaveEnv) (data : String) (fs : SaveFs),
    ((save env data fs).1 = .ok () →
      (save env data fs).2.filesJsonTmp = none ∧ (save env data fs).2.filesJson = some data) ∧
    (env.openFails = false → env.renameFails = true →
      (fs.filesJson.isSome && env.removeFails) = false →
      (save env data fs).1 = .error saveCriticalMsg ∧
      (save env data fs).2 = ⟨none, none⟩) ∧
    (env.openFails = false → fs.filesJson.isSome = true → env.removeFails = true →
      (save env data fs).2.filesJson = fs.filesJson) := by
  rintro ⟨o, rm, rn⟩ data ⟨fj, ft⟩
  cases o <;> cases rm <;> cases rn <;> cases fj <;>
    simp [save, saveCleanupTmp]

/-- C6, witness for the amended theorem: the critical rename-failure
path at a concrete environment. -/
theorem C6_witness :
    saveEnvRenameFail.openFails = false ∧ saveEnvRenameFail.renameFails = true ∧
    (saveFsOld.filesJson.isSome && saveEnvRenameFail.removeFails) = false ∧
    (save saveEnvRenameFail "new" saveFsOld).1 = .error saveCriticalMsg ∧
    (save saveEnvRenameFail "new" saveFsOld).2 = ⟨none, none⟩ := by
  have h := (C6_theorem saveEnvRenameFail "new" saveFsOld).2.1 rfl rfl (by decide)
  exact ⟨rfl, rfl, by decide, h.1, h.2⟩

/-! ## C7: fatality of the impossible update outcomes -/

/-- C7, counterexample: the `LocalChanged` handler of `updateAction`
does not abort the run; it only prints a warning (its `panic` is
commented out in the source). -/
theorem C7_counterexample : ¬ claimC7 := by
  intro h
  exact absurd (h.1 movedLocalEx movedRemoteEx) (by decide)

/-- C7, amended: `LocalDeleted` and `RemoteDeleted` abort the run with a
panic, but `LocalChanged` merely logs a warning and proceeds, and the
conflict callbacks are handled non-fatally. -/
theorem C7_theorem :
    (∀ l r : FileInfo, updateActionOutcome (.localDeleted l r) = .panic (localDeletedMsg l)) ∧
    (∀ l r : FileInfo, updateActionOutcome (.remoteDeleted l r) = .panic remoteDeletedMsg) ∧
    (∀ l r : FileInfo, updateActionOutcome (.localChanged (some l) r) = .proceed) ∧
    (∀ l r : FileInfo, updateActionOutcome (.conflictPath l r) = .proceed) ∧
    (∀ ls rs : List (Option FileInfo), ((ls ++ rs).all (·.isSome)) = true →
      updateActionOutcome (.conflictHash ls rs) = .proceed) := by
  refine ⟨fun l r => rfl, fun l r => rfl, fun l r => rfl, fun l r => rfl, ?_⟩
  intro ls rs h
  simp [updateActionOutcome, h]

/-- C7, witness for the amended theorem. -/
theorem C7_witness :
    (([some movedLocalEx] ++ ([] : List (Option FileInfo))).all (·.isSome)) = true ∧
    updateActionOutcome (.conflictHash [some movedLocalEx] []) = .proceed :=
  ⟨by decide, C7_theorem.2.2.2.2 [some movedLocalEx] [] (by decide)⟩

/-! ## C8: the current-checksum accessors -/

/-- C8, counterexample: the later draft's accessor returns the literal
last event's checksum, which is empty for a deleted file, not the
pre-deletion checksum. -/
theorem C8_counterexample : ¬ claimC8 := by
  intro h
  exact absurd (h.2 exDelH) (by decide)

/-- C8, amended: the backwards-scanning accessor of `lib/boffin.go`
returns the checksum of the last event whose checksum is non-empty
(empty if none), as the spec says; the accessor of the later draft
returns the literal last event's checksum and is therefore empty on
every deleted file. -/
theorem C8_theorem :
    (∀ fi : FileInfo, fi.Checksum = specCurrentChecksum fi) ∧
    (∀ fi : FileInfo, fi.IsDeleted = true → fi.checksumLast = "") := by
  constructor
  · intro fi
    unfold FileInfo.Checksum FileInfo.lastReal specCurrentChecksum
    rw [reverse_find?_eq_filter_getLast?]
  · intro fi hd
    unfold FileInfo.checksumLast
    unfold FileInfo.IsDeleted at hd
    cases hl : fi.history.getLast? with
    | none => simp
    | some e =>
      rw [hl] at hd
      simp only [beq_iff_eq] at hd
      simp [hd]

/-- C8, witness for the amended theorem at a concrete deleted file. -/
theorem C8_witness : exDelH.IsDeleted = true ∧ exDelH.checksumLast = "" :=
  ⟨by decide, C8_theorem.2 exDelH (by decide)⟩

/-! ## C9: the verify command -/

/-- The per-file report verify produces. -/
def classifyVerify (hash : String → Except String String) (f : FileInfo) : VerifyReport :=
  match hash f.Path with
  | .error e => .ioError e
  | .ok c => if c != f.Checksum then .mismatch f.Path else .okFile f.Path

def hashErr (hash : String → Except String String) (f : FileInfo) : Bool :=
  match hash f.Path with
  | .error _ => true
  | .ok _ => false

def hashMismatch (hash : String → Except String String) (f : FileInfo) : Bool :=
  match hash f.Path with
  | .error _ => false
  | .ok c => c != f.Checksum

theorem verifyGo_spec (hash : String → Except String String) :
    ∀ files : List FileInfo,
      (verifyGo hash files).1 = (files.filter (fun f => !f.IsDeleted)).map (classifyVerify hash) ∧
      (verifyGo hash files).2.1 = files.any (fun f => !f.IsDeleted && hashErr hash f) ∧
      (verifyGo hash files).2.2 = files.any (fun f => !f.IsDeleted && hashMismatch hash f) := by
  intro files
  induction files with
  | nil => exact ⟨rfl, rfl, rfl⟩
  | cons f fs ih =>
    obtain ⟨ih1, ih2, ih3⟩ := ih
    unfold verifyGo
    cases hd : f.IsDeleted with
    | true => simpa [hd] using ⟨ih1, ih2, ih3⟩
    | false =>
      cases hh : hash f.Path with
      | error e =>
        simp [hd, hh, ih1, ih2, ih3, classifyVerify, hashErr, hashMismatch]
      | ok c =>
        cases hc : (c != f.Checksum) with
        | true =>
          simp [hd, hh, hc, ih1, ih2, ih3, classifyVerify, hashErr, hashMismatch]
        | false =>
          simp [hd, hh, hc, ih1, ih2, ih3, classifyVerify, hashErr, hashMismatch]

/-- C9: verify recomputes the hash of each non-deleted file's current
path, reports OK, mismatch or I/O error per file (one report per
non-deleted file, in order), and exits 0 exactly when every hash
recomputation succeeds and matches the stored current checksum. -/
theorem C9_theorem (hash : String → Except String String) (files : List FileInfo) :
    (verifyGo hash files).1 = (files.filter (fun f => !f.IsDeleted)).map (classifyVerify hash) ∧
    (verifyExitCode hash files = 0 ↔
      ∀ f ∈ files, f.IsDeleted = false → hash f.Path = .ok f.Checksum) := by
  obtain ⟨h1, h2, h3⟩ := verifyGo_spec hash files
  refine ⟨h1, ?_⟩
  have hz : verifyExitCode hash files = 0 ↔
      ((verifyGo hash files).2.1 = false ∧ (verifyGo hash files).2.2 = false) := by
    simp only [verifyExitCode]
    cases hb1 : (verifyGo hash files).2.1 <;> cases hb2 : (verifyGo hash files).2.2 <;>
      simp [hb1, hb2]
  rw [hz, h2, h3, List.any_eq_false, List.any_eq_false]
  constructor
  · rintro ⟨ha, hb⟩ f hf hd
    have h1' := ha f hf
    have h2' := hb f hf
    cases hh : hash f.Path with
    | error e => simp [hd, hashErr, hh] at h1'
    | ok c =>
      simp [hd, hashMismatch, hh] at h2'
      rw [h2']
  · intro h
    constructor <;> intro f hf
    · cases hd : f.IsDeleted with
      | true => simp [hd]
      | false =>
        have hhash := h f hf hd
        simp [hd, hashErr, hhash]
    · cases hd : f.IsDeleted with
      | true => simp [hd]
      | false =>
        have hhash := h f hf hd
        simp [hd, hashMismatch, hhash]

/-! ## C10: termination of FindBoffinDir -/

/-- C10: for every filesystem predicate and every cleaned absolute
starting directory, the ancestor walk terminates within one step per
path component plus the root, returning either a directory that
contains `.boffin` or the well-known error. -/
theorem C10_theorem (hasBoffin : List String → Bool) (dir : List String) :
    ∃ r, FindBoffinDir hasBoffin dir = some r ∧
      ((∃ d, r = .ok (d ++ [".boffin"]) ∧ hasBoffin d = true) ∨
        r = .error "could not find .boffin dir") := by
  unfold FindBoffinDir
  have key : ∀ (n : Nat) (dir : List String), dir.length = n →
      ∃ r, findLoop hasBoffin (n + 1) dir = some r ∧
        ((∃ d, r = .ok (d ++ [".boffin"]) ∧ hasBoffin d = true) ∨
          r = .error "could not find .boffin dir") := by
    intro n
    induction n with
    | zero =>
      intro dir hd
      have hnil : dir = [] := List.length_eq_zero.mp hd
      subst hnil
      cases hb : hasBoffin [] with
      | true => exact ⟨.ok [".boffin"], by simp [findLoop, hb], .inl ⟨[], by simp, hb⟩⟩
      | false => exact ⟨.error "could not find .boffin dir", by simp [findLoop, hb], .inr rfl⟩
    | succ n ih =>
      intro dir hd
      cases hb : hasBoffin dir with
      | true =>
        exact ⟨.ok (dir ++ [".boffin"]), by simp [findLoop, hb], .inl ⟨dir, rfl, hb⟩⟩
      | false =>
        have hne : dir ≠ [] := by
          intro hcon
          rw [hcon] at hd
          simp at hd
        have hstep : findLoop hasBoffin (n + 1 + 1) dir = findLoop hasBoffin (n + 1) dir.dropLast := by
          simp [findLoop, hb, hne]
        have hlen : dir.dropLast.length = n := by
          rw [List.length_dropLast, hd]
          rfl
        obtain ⟨r, hr, hc⟩ := ih dir.dropLast hlen
        exact ⟨r, by rw [hstep]; exact hr, hc⟩
  obtain ⟨r, hr, hc⟩ := key dir.length dir rfl
  exact ⟨r, hr, hc⟩

/-! ## Conservation of files through the diff passes

Each pass neither duplicates nor drops files: the files mentioned in
its events together with its residual lists are a permutation of its
input.  These lemmas drive the partition claims. -/

theorem evsLocals_cons (e : DiffEvent) (evs : List DiffEvent) :
    evsLocals (e :: evs) = evLocals e ++ evsLocals evs := rfl

theorem evsRemotes_cons (e : DiffEvent) (evs : List DiffEvent) :
    evsRemotes (e :: evs) = evRemotes e ++ evsRemotes evs := rfl

theorem evsLocals_append (a b : List DiffEvent) :
    evsLocals (a ++ b) = evsLocals a ++ evsLocals b := by
  simp [evsLocals]

theorem evsRemotes_append (a b : List DiffEvent) :
    evsRemotes (a ++ b) = evsRemotes a ++ evsRemotes b := by
  simp [evsRemotes]

theorem reduceOption_map_some' (l : List FileInfo) : (l.map some).reduceOption = l := by
  induction l with
  | nil => rfl
  | cons x xs ih => simp [List.reduceOption_cons_of_some, ih]

/-- Blanking index `i` moves its entry (if any) out of the survivors. -/
theorem peek_set_perm (arr : List (Option FileInfo)) (i : Nat) :
    (arr.getD i none).toList ++ (arr.set i none).reduceOption ~ arr.reduceOption := by
  induction arr generalizing i with
  | nil => simp [List.getD]
  | cons a t ih =>
    cases i with
    | zero =>
      cases a with
      | none => simp [List.getD, List.reduceOption_cons_of_none]
      | some v => simp [List.getD, List.reduceOption_cons_of_none, List.reduceOption_cons_of_some]
    | succ n =>
      have hgd : (a :: t).getD (n + 1) none = t.getD n none := by
        simp [List.getD]
      rw [hgd, List.set_cons_succ]
      cases a with
      | none =>
        simpa [List.reduceOption_cons_of_none] using ih n
      | some v =>
        simp only [List.reduceOption_cons_of_some]
        calc (t.getD n none).toList ++ v :: (t.set n none).reduceOption
            ~ v :: ((t.getD n none).toList ++ (t.set n none).reduceOption) := by
              exact List.perm_middle
          _ ~ v :: t.reduceOption := (ih n).cons v

theorem collectAll_perm (is : List Nat) (arr : List (Option FileInfo)) :
    (collectAll is arr).1.reduceOption ++ (collectAll is arr).2.reduceOption ~ arr.reduceOption := by
  induction is generalizing arr with
  | nil => simp [collectAll]
  | cons i is ih =>
    have hp := peek_set_perm arr i
    simp only [collectAll]
    cases hv : arr.getD i none with
    | none =>
      rw [hv] at hp
      simp only [Option.toList_none, List.nil_append] at hp
      simp only [List.reduceOption_cons_of_none]
      exact (ih (arr.set i none)).trans hp
    | some v =>
      rw [hv] at hp
      simp only [Option.toList_some, List.singleton_append] at hp
      simp only [List.reduceOption_cons_of_some, List.cons_append]
      exact ((ih (arr.set i none)).cons v).trans hp

theorem collectSome_perm (is : List Nat) (arr : List (Option FileInfo)) :
    (collectSome is arr).1 ++ (collectSome is arr).2.reduceOption ~ arr.reduceOption := by
  induction is generalizing arr with
  | nil => simp [collectSome]
  | cons i is ih =>
    have hp := peek_set_perm arr i
    simp only [collectSome]
    cases hv : arr.getD i none with
    | none => exact ih arr
    | some v =>
      rw [hv] at hp
      simp only [Option.toList_some, List.singleton_append] at hp
      simp only [List.cons_append]
      exact ((ih (arr.set i none)).cons v).trans hp

/-! ### Hash-map bucket lemmas -/

theorem lookup_erase_flat {m : List (String × List FileInfo)} {k : String}
    {v : List FileInfo} (h : lookupKey m k = some v) :
    m.flatMap (·.2) ~ v ++ (eraseKey m k).flatMap (·.2) := by
  induction m with
  | nil => simp [lookupKey] at h
  | cons p rest ih =>
    obtain ⟨k', w⟩ := p
    by_cases hk : k' = k
    · subst hk
      have hwv : w = v := by simpa [lookupKey] using h
      subst hwv
      simp [eraseKey]
    · simp only [lookupKey, if_neg hk] at h
      simp only [eraseKey, if_neg hk, List.flatMap_cons]
      calc w ++ rest.flatMap (·.2)
          ~ w ++ (v ++ (eraseKey rest k).flatMap (·.2)) := (ih h).append_left w
        _ = (w ++ v) ++ (eraseKey rest k).flatMap (·.2) := by rw [List.append_assoc]
        _ ~ (v ++ w) ++ (eraseKey rest k).flatMap (·.2) :=
            (List.perm_append_comm).append_right _
        _ = v ++ (w ++ (eraseKey rest k).flatMap (·.2)) := by rw [List.append_assoc]

theorem lookup_erase_vals {m : List (String × FileInfo)} {k : String}
    {v : FileInfo} (h : lookupKey m k = some v) :
    m.map (·.2) ~ v :: (eraseKey m k).map (·.2) := by
  induction m with
  | nil => simp [lookupKey] at h
  | cons p rest ih =>
    obtain ⟨k', w⟩ := p
    by_cases hk : k' = k
    · subst hk
      have hwv : w = v := by simpa [lookupKey] using h
      subst hwv
      simp [eraseKey]
    · simp only [lookupKey, if_neg hk] at h
      simp only [eraseKey, if_neg hk, List.map_cons]
      exact ((ih h).cons w).trans (List.Perm.swap v w _)

theorem bucketInsert_flat (m : List (String × List FileInfo)) (k : String) (f : FileInfo) :
    (bucketInsert m k f).flatMap (·.2) ~ f :: m.flatMap (·.2) := by
  induction m with
  | nil => simp [bucketInsert]
  | cons p rest ih =>
    obtain ⟨k', fs⟩ := p
    unfold bucketInsert
    by_cases hk : k' = k
    · simp only [hk, if_pos rfl, List.flatMap_cons]
      calc (fs ++ [f]) ++ rest.flatMap (·.2)
          = fs ++ f :: rest.flatMap (·.2) := by simp
        _ ~ f :: (fs ++ rest.flatMap (·.2)) := List.perm_middle
    · simp only [if_neg hk, List.flatMap_cons]
      calc fs ++ (bucketInsert rest k f).flatMap (·.2)
          ~ fs ++ (f :: rest.flatMap (·.2)) := ih.append_left fs
        _ ~ f :: (fs ++ rest.flatMap (·.2)) := List.perm_middle

theorem hashMapFold_flat (files : List FileInfo) (m : List (String × List FileInfo)) :
    ((files.foldl (fun m f => if f.IsDeleted then m else bucketInsert m f.Checksum f) m).flatMap
        (·.2)) ~
      m.flatMap (·.2) ++ files.filter (fun f => !f.IsDeleted) := by
  induction files generalizing m with
  | nil => simp
  | cons f fs ih =>
    simp only [List.foldl_cons, List.filter_cons]
    cases hd : f.IsDeleted with
    | true => simpa [hd] using ih m
    | false =>
      simp only [hd, Bool.not_false, if_neg (by simp : ¬(false = true)), cond_true]
      calc ((fs.foldl _ (bucketInsert m f.Checksum f)).flatMap (·.2))
          ~ (bucketInsert m f.Checksum f).flatMap (·.2) ++ fs.filter (fun f => !f.IsDeleted) :=
            ih (bucketInsert m f.Checksum f)
        _ ~ (f :: m.flatMap (·.2)) ++ fs.filter (fun f => !f.IsDeleted) :=
            (bucketInsert_flat m f.Checksum f).append_right _
        _ ~ m.flatMap (·.2) ++ f :: fs.filter (fun f => !f.IsDeleted) := List.perm_middle.symm

theorem FilesToHashMap_flat (files : List FileInfo) :
    (FilesToHashMap files).flatMap (·.2) ~ files.filter (fun f => !f.IsDeleted) := by
  simpa [FilesToHashMap] using hashMapFold_flat files []

theorem FilesToHashMap_mem_nonDeleted {files : List FileInfo} {f : FileInfo}
    (h : f ∈ (FilesToHashMap files).flatMap (·.2)) : f.IsDeleted = false ∧ f ∈ files := by
  have := (FilesToHashMap_flat files).mem_iff.mp h
  have hmem := List.mem_filter.mp this
  exact ⟨by simpa using hmem.2, hmem.1⟩

/-! ### Pass 1 conservation -/

theorem pass1Inner_locals (l : FileInfo) (ls : List FileInfo)
    (f : List FileInfo → List DiffEvent × List FileInfo × List FileInfo)
    (hf : ∀ rs, evsLocals (f rs).1 ++ (f rs).2.1 ~ ls) :
    ∀ rs, evsLocals (pass1Inner l ls f rs).1 ++ (pass1Inner l ls f rs).2.1 ~ l :: ls := by
  intro rs
  induction rs with
  | nil => simp [pass1Inner, evsLocals]
  | cons r rs ih =>
    simp only [pass1Inner]
    cases h1 : strLt l.Path r.Path with
    | true =>
      simp only [if_true]
      exact List.perm_middle.trans ((hf (r :: rs)).cons l)
    | false =>
      simp only [Bool.false_eq_true, if_false]
      cases h2 : strLt r.Path l.Path with
      | true =>
        simp only [if_true]
        exact ih
      | false =>
        simp only [Bool.false_eq_true, if_false]
        cases hg : (!l.IsDeleted && !r.IsDeleted && l.Checksum == r.Checksum) with
        | true =>
          simp only [if_true]
          cases ht : (l.Time != r.Time) with
          | true =>
            simp only [if_true, evsLocals_cons, evLocals, List.cons_append, List.append_assoc]
            exact (hf rs).cons l
          | false =>
            simp only [Bool.false_eq_true, if_false, evsLocals_cons, evLocals,
              List.cons_append, List.append_assoc]
            exact (hf rs).cons l
        | false =>
          simp only [Bool.false_eq_true, if_false]
          exact List.perm_middle.trans ((hf rs).cons l)

theorem pass1Inner_remotes (l : FileInfo) (ls : List FileInfo)
    (f : List FileInfo → List DiffEvent × List FileInfo × List FileInfo)
    (hf : ∀ rs, evsRemotes (f rs).1 ++ (f rs).2.2 ~ rs) :
    ∀ rs, evsRemotes (pass1Inner l ls f rs).1 ++ (pass1Inner l ls f rs).2.2 ~ rs := by
  intro rs
  induction rs with
  | nil => simp [pass1Inner, evsRemotes]
  | cons r rs ih =>
    simp only [pass1Inner]
    cases h1 : strLt l.Path r.Path with
    | true =>
      simp only [if_true]
      exact hf (r :: rs)
    | false =>
      simp only [Bool.false_eq_true, if_false]
      cases h2 : strLt r.Path l.Path with
      | true =>
        simp only [if_true]
        exact List.perm_middle.trans (ih.cons r)
      | false =>
        simp only [Bool.false_eq_true, if_false]
        cases hg : (!l.IsDeleted && !r.IsDeleted && l.Checksum == r.Checksum) with
        | true =>
          simp only [if_true]
          cases ht : (l.Time != r.Time) with
          | true =>
            simp only [if_true, evsRemotes_cons, evRemotes, List.cons_append, List.append_assoc]
            exact (hf rs).cons r
          | false =>
            simp only [Bool.false_eq_true, if_false, evsRemotes_cons, evRemotes,
              List.cons_append, List.append_assoc]
            exact (hf rs).cons r
        | false =>
          simp only [Bool.false_eq_true, if_false]
          exact List.perm_middle.trans ((hf rs).cons r)

theorem pass1Merge_locals (ls : List FileInfo) :
    ∀ rs, evsLocals (pass1Merge ls rs).1 ++ (pass1Merge ls rs).2.1 ~ ls := by
  induction ls with
  | nil => intro rs; simp [pass1Merge, evsLocals]
  | cons l ls ih =>
    intro rs
    simp only [pass1Merge]
    exact pass1Inner_locals l ls (pass1Merge ls) ih rs

theorem pass1Merge_remotes (ls : List FileInfo) :
    ∀ rs, evsRemotes (pass1Merge ls rs).1 ++ (pass1Merge ls rs).2.2 ~ rs := by
  induction ls with
  | nil => intro rs; simp [pass1Merge, evsRemotes]
  | cons l ls ih =>
    intro rs
    simp only [pass1Merge]
    exact pass1Inner_remotes l ls (pass1Merge ls) ih rs

theorem pass1_locals (locl remote : List FileInfo) :
    evsLocals (matchRemoteToLocalUsingPathAndCurrentHashes locl remote).1 ++
      (matchRemoteToLocalUsingPathAndCurrentHashes locl remote).2.1 ~ locl := by
  unfold matchRemoteToLocalUsingPathAndCurrentHashes
  exact (pass1Merge_locals _ _).trans (List.perm_insertionSort _ locl)

theorem pass1_remotes (locl remote : List FileInfo) :
    evsRemotes (matchRemoteToLocalUsingPathAndCurrentHashes locl remote).1 ++
      (matchRemoteToLocalUsingPathAndCurrentHashes locl remote).2.2 ~ remote := by
  unfold matchRemoteToLocalUsingPathAndCurrentHashes
  exact (pass1Merge_remotes _ _).trans (List.perm_insertionSort _ remote)

/-! ### The character-list order -/

theorem charsLt_antisymm_eq : ∀ {as bs : List Char},
    charsLt as bs = false → charsLt bs as = false → as = bs := by
  intro as
  induction as with
  | nil =>
    intro bs h1 h2
    cases bs with
    | nil => rfl
    | cons b bs => simp [charsLt] at h1
  | cons a as ih =>
    intro bs h1 h2
    cases bs with
    | nil => simp [charsLt] at h2
    | cons b bs =>
      simp only [charsLt] at h1 h2
      by_cases hab : a < b
      · simp [hab] at h1
      · by_cases hba : b < a
        · simp [hab, hba] at h2
        · have hab' : a = b := le_antisymm (not_lt.mp hba) (not_lt.mp hab)
          subst hab'
          simp only [lt_irrefl, if_neg, if_false] at h1 h2
          rw [ih (by simpa using h1) (by simpa using h2)]

theorem strLt_eq_of_not_lt {a b : String} (h1 : strLt a b = false) (h2 : strLt b a = false) :
    a = b := by
  unfold strLt at h1 h2
  have hd := charsLt_antisymm_eq h1 h2
  cases a with
  | mk da =>
    cases b with
    | mk db => simp at hd; rw [hd]

/-! ### What pass 1 emits -/

/-- A matched pair of pass 1: same current path, neither deleted, equal
current checksums, reported as `MetaDataChanged` exactly when the times
differ. -/
def goodPairEvent (ls rs : List FileInfo) (e : DiffEvent) : Prop :=
  ∃ a b, a ∈ ls ∧ b ∈ rs ∧ a.Path = b.Path ∧ a.IsDeleted = false ∧ b.IsDeleted = false ∧
    a.Checksum = b.Checksum ∧
    e = (if a.Time != b.Time then .metaDataChanged a b else .unchanged a b)

theorem goodPairEvent_mono {ls ls' rs rs' : List FileInfo} {e : DiffEvent}
    (hls : ∀ x ∈ ls, x ∈ ls') (hrs : ∀ x ∈ rs, x ∈ rs')
    (h : goodPairEvent ls rs e) : goodPairEvent ls' rs' e := by
  obtain ⟨a, b, ha, hb, hrest⟩ := h
  exact ⟨a, b, hls a ha, hrs b hb, hrest⟩

theorem pass1Inner_events_sound (l : FileInfo) (ls : List FileInfo)
    (f : List FileInfo → List DiffEvent × List FileInfo × List FileInfo)
    (hf : ∀ rs e, e ∈ (f rs).1 → goodPairEvent ls rs e) :
    ∀ rs e, e ∈ (pass1Inner l ls f rs).1 → goodPairEvent (l :: ls) rs e := by
  intro rs
  induction rs with
  | nil => intro e he; simp [pass1Inner] at he
  | cons r rs ih =>
    intro e
    simp only [pass1Inner]
    cases h1 : strLt l.Path r.Path with
    | true =>
      intro he
      exact goodPairEvent_mono (fun x hx => List.mem_cons_of_mem l hx) (fun x hx => hx)
        (hf (r :: rs) e he)
    | false =>
      cases h2 : strLt r.Path l.Path with
      | true =>
        intro he
        simp only [Bool.false_eq_true, if_false, if_true] at he
        exact goodPairEvent_mono (fun x hx => hx) (fun x hx => List.mem_cons_of_mem r hx)
          (ih e he)
      | false =>
        have hpath : l.Path = r.Path := strLt_eq_of_not_lt h1 h2
        cases hg : (!l.IsDeleted && !r.IsDeleted && l.Checksum == r.Checksum) with
        | true =>
          simp only [Bool.false_eq_true, if_false, if_true]
          simp only [Bool.and_eq_true, Bool.not_eq_true', beq_iff_eq] at hg
          intro he
          cases ht : (l.Time != r.Time) with
          | true =>
            rw [ht] at he
            simp only [if_true, List.mem_cons] at he
            cases he with
            | inl hhead =>
              exact ⟨l, r, List.mem_cons_self l ls, List.mem_cons_self r rs, hpath,
                hg.1.1, hg.1.2, hg.2, by simp [hhead, ht]⟩
            | inr htail =>
              exact goodPairEvent_mono (fun x hx => List.mem_cons_of_mem l hx)
                (fun x hx => List.mem_cons_of_mem r hx) (hf rs e htail)
          | false =>
            rw [ht] at he
            simp only [Bool.false_eq_true, if_false, List.mem_cons] at he
            cases he with
            | inl hhead =>
              exact ⟨l, r, List.mem_cons_self l ls, List.mem_cons_self r rs, hpath,
                hg.1.1, hg.1.2, hg.2, by simp [hhead, ht]⟩
            | inr htail =>
              exact goodPairEvent_mono (fun x hx => List.mem_cons_of_mem l hx)
                (fun x hx => List.mem_cons_of_mem r hx) (hf rs e htail)
        | false =>
          simp only [Bool.false_eq_true, if_false]
          intro he
          exact goodPairEvent_mono (fun x hx => List.mem_cons_of_mem l hx)
            (fun x hx => List.mem_cons_of_mem r hx) (hf rs e he)

theorem pass1Merge_events_sound (ls : List FileInfo) :
    ∀ rs e, e ∈ (pass1Merge ls rs).1 → goodPairEvent ls rs e := by
  induction ls with
  | nil => intro rs e he; simp [pass1Merge] at he
  | cons l ls ih =>
    intro rs e he
    exact pass1Inner_events_sound l ls (pass1Merge ls) ih rs e he

theorem pass1_events_sound (locl remote : List FileInfo) :
    ∀ e ∈ (matchRemoteToLocalUsingPathAndCurrentHashes locl remote).1,
      goodPairEvent locl remote e := by
  intro e he
  have h := pass1Merge_events_sound (sortByPath locl) (sortByPath remote) e he
  exact goodPairEvent_mono
    (fun x hx => (List.perm_insertionSort _ locl).mem_iff.mp hx)
    (fun x hx => (List.perm_insertionSort _ remote).mem_iff.mp hx) h

theorem pass1_mentions_nonDeleted (locl remote : List FileInfo) :
    (∀ g ∈ evsLocals (matchRemoteToLocalUsingPathAndCurrentHashes locl remote).1,
      g.IsDeleted = false) ∧
    (∀ g ∈ evsRemotes (matchRemoteToLocalUsingPathAndCurrentHashes locl remote).1,
      g.IsDeleted = false) := by
  constructor <;> intro g hg
  · obtain ⟨e, he, hg⟩ := List.mem_flatMap.mp hg
    obtain ⟨a, b, _, _, _, hnda, hndb, _, hev⟩ := pass1_events_sound locl remote e he
    subst hev
    cases ht : (a.Time != b.Time) <;> rw [ht] at hg <;> simp [evLocals] at hg <;>
      rw [hg] <;> assumption
  · obtain ⟨e, he, hg⟩ := List.mem_flatMap.mp hg
    obtain ⟨a, b, _, _, _, hnda, hndb, _, hev⟩ := pass1_events_sound locl remote e he
    subst hev
    cases ht : (a.Time != b.Time) <;> rw [ht] at hg <;> simp [evRemotes] at hg <;>
      rw [hg] <;> assumption

/-! ### Map membership plumbing for the mention lemmas -/

theorem lookupKey_mem {β : Type} {m : List (String × β)} {k : String} {v : β}
    (h : lookupKey m k = some v) : ∃ k', (k', v) ∈ m := by
  induction m with
  | nil => simp [lookupKey] at h
  | cons p rest ih =>
    obtain ⟨k', w⟩ := p
    by_cases hk : k' = k
    · have hwv : w = v := by simpa [lookupKey, hk] using h
      exact ⟨k', by simp [hwv]⟩
    · rw [lookupKey, if_neg hk] at h
      obtain ⟨k'', hm⟩ := ih h
      exact ⟨k'', List.mem_cons_of_mem _ hm⟩

theorem eraseKey_mem {β : Type} {m : List (String × β)} {k : String} :
    ∀ p ∈ eraseKey m k, p ∈ m := by
  induction m with
  | nil => simp [eraseKey]
  | cons q rest ih =>
    obtain ⟨k', w⟩ := q
    intro p hp
    by_cases hk : k' = k
    · rw [eraseKey, if_pos hk] at hp
      exact List.mem_cons_of_mem _ hp
    · rw [eraseKey, if_neg hk] at hp
      rcases List.mem_cons.mp hp with h | h
      · exact h ▸ List.mem_cons_self _ _
      · exact List.mem_cons_of_mem _ (ih p h)

theorem hashMap_buckets_nonDeleted (files : List FileInfo) :
    ∀ p ∈ FilesToHashMap files, ∀ g ∈ p.2, g.IsDeleted = false := fun p hp g hg =>
  (FilesToHashMap_mem_nonDeleted (List.mem_flatMap.mpr ⟨p, hp, hg⟩)).1

/-! ### Pass 2 conservation -/

/-- Shift a passed-through block across the emitted mentions. -/
theorem perm_shift (E L NL R : List FileInfo) (h : E ++ NL ~ R) : E ++ (L ++ NL) ~ L ++ R := by
  calc E ++ (L ++ NL) = (E ++ L) ++ NL := by rw [List.append_assoc]
    _ ~ (L ++ E) ++ NL := (List.perm_append_comm).append_right NL
    _ = L ++ (E ++ NL) := by rw [List.append_assoc]
    _ ~ L ++ R := h.append_left L

/-- The two deletion filters split a file list. -/
theorem deleted_filter_split (l : List FileInfo) :
    l.filter (·.IsDeleted) ++ l.filter (fun f => !f.IsDeleted) ~ l :=
  List.filter_append_perm _ l

theorem pass2Go_locals (lmap rmap : List (String × List FileInfo)) :
    evsLocals (pass2Go lmap rmap).1 ++ (pass2Go lmap rmap).2.1 ~ lmap.flatMap (·.2) := by
  induction lmap, rmap using pass2Go.induct with
  | case1 rmap => simp [pass2Go, evsLocals]
  | case2 h rest rmap lf rf hlk ih =>
    simp only [pass2Go, hlk, evsLocals_cons, evLocals, List.flatMap_cons, List.cons_append,
      List.singleton_append]
    exact ih.cons lf
  | case3 h lfs rest rmap rfs hlk hne ih =>
    simp only [pass2Go, hlk, List.flatMap_cons]
    exact perm_shift _ lfs _ _ ih
  | case4 h lfs rest rmap hlk ih =>
    simp only [pass2Go, hlk, List.flatMap_cons]
    exact perm_shift _ lfs _ _ ih

theorem pass2Go_remotes (lmap rmap : List (String × List FileInfo)) :
    evsRemotes (pass2Go lmap rmap).1 ++ (pass2Go lmap rmap).2.2 ~ rmap.flatMap (·.2) := by
  induction lmap, rmap using pass2Go.induct with
  | case1 rmap => simp [pass2Go, evsRemotes]
  | case2 h rest rmap lf rf hlk ih =>
    simp only [pass2Go, hlk, evsRemotes_cons, evRemotes, List.cons_append, List.singleton_append]
    exact (ih.cons rf).trans (lookup_erase_flat hlk).symm
  | case3 h lfs rest rmap rfs hlk hne ih =>
    simp only [pass2Go, hlk]
    exact (perm_shift _ rfs _ _ ih).trans (lookup_erase_flat hlk).symm
  | case4 h lfs rest rmap hlk ih =>
    simp only [pass2Go, hlk]
    exact ih

theorem pass2_locals (locl remote : List FileInfo) :
    evsLocals (matchRemoteToLocalUsingCurrentHashes locl remote).1 ++
      (matchRemoteToLocalUsingCurrentHashes locl remote).2.1 ~ locl := by
  simp only [matchRemoteToLocalUsingCurrentHashes]
  have h1 := (pass2Go_locals (FilesToHashMap locl) (FilesToHashMap remote)).trans
    (FilesToHashMap_flat locl)
  exact (perm_shift _ (locl.filter (·.IsDeleted)) _ _ h1).trans (deleted_filter_split locl)

theorem pass2_remotes (locl remote : List FileInfo) :
    evsRemotes (matchRemoteToLocalUsingCurrentHashes locl remote).1 ++
      (matchRemoteToLocalUsingCurrentHashes locl remote).2.2 ~ remote := by
  simp only [matchRemoteToLocalUsingCurrentHashes]
  have h1 := (pass2Go_remotes (FilesToHashMap locl) (FilesToHashMap remote)).trans
    (FilesToHashMap_flat remote)
  exact (perm_shift _ (remote.filter (·.IsDeleted)) _ _ h1).trans (deleted_filter_split remote)

/-! ### Pass 3 and pass 4 conservation -/

theorem pass3Go_locals (rbuckets : List (String × List FileInfo))
    (lmap : List (String × List Nat)) (arr : List (Option FileInfo)) :
    evsLocals (pass3Go rbuckets lmap arr).1 ++ (pass3Go rbuckets lmap arr).2.1.reduceOption ~
      arr.reduceOption := by
  induction rbuckets, lmap, arr using pass3Go.induct with
  | case1 lmap arr => simp [pass3Go, evsLocals]
  | case2 h rest lmap arr i rf hlk ih =>
    simp only [pass3Go, hlk, evsLocals_cons, evLocals, List.append_assoc]
    exact (ih.append_left _).trans (peek_set_perm arr i)
  | case3 h rest lmap arr is rfs hne c hlk ih =>
    simp only [pass3Go, hlk, evsLocals_cons, evLocals, List.append_assoc]
    exact (ih.append_left _).trans (collectAll_perm is arr)
  | case4 h rfs rest lmap arr hlk ih =>
    simp only [pass3Go, hlk]
    exact ih

theorem pass3Go_remotes (rbuckets : List (String × List FileInfo))
    (lmap : List (String × List Nat)) (arr : List (Option FileInfo)) :
    evsRemotes (pass3Go rbuckets lmap arr).1 ++ (pass3Go rbuckets lmap arr).2.2 ~
      rbuckets.flatMap (·.2) := by
  induction rbuckets, lmap, arr using pass3Go.induct with
  | case1 lmap arr => simp [pass3Go, evsRemotes]
  | case2 h rest lmap arr i rf hlk ih =>
    simp only [pass3Go, hlk, evsRemotes_cons, evRemotes, List.flatMap_cons, List.cons_append,
      List.singleton_append]
    exact ih.cons rf
  | case3 h rest lmap arr is rfs hne c hlk ih =>
    simp only [pass3Go, hlk, evsRemotes_cons, evRemotes, List.flatMap_cons, List.append_assoc,
      reduceOption_map_some']
    exact ih.append_left rfs
  | case4 h rfs rest lmap arr hlk ih =>
    simp only [pass3Go, hlk, List.flatMap_cons]
    exact perm_shift _ rfs _ _ ih

theorem pass3_locals (locl remote : List FileInfo) :
    evsLocals (matchCurrentRemoteToHistoricalLocalUsingHashes locl remote).1 ++
      (matchCurrentRemoteToHistoricalLocalUsingHashes locl remote).2.1 ~ locl := by
  simp only [matchCurrentRemoteToHistoricalLocalUsingHashes]
  have h := pass3Go_locals (FilesToHashMap remote) (filesToHistoricHashMap locl) (locl.map some)
  rwa [reduceOption_map_some'] at h

theorem pass3_remotes (locl remote : List FileInfo) :
    evsRemotes (matchCurrentRemoteToHistoricalLocalUsingHashes locl remote).1 ++
      (matchCurrentRemoteToHistoricalLocalUsingHashes locl remote).2.2 ~ remote := by
  simp only [matchCurrentRemoteToHistoricalLocalUsingHashes]
  have h1 := (pass3Go_remotes (FilesToHashMap remote) (filesToHistoricHashMap locl)
    (locl.map some)).trans (FilesToHashMap_flat remote)
  exact (perm_shift _ (remote.filter (·.IsDeleted)) _ _ h1).trans (deleted_filter_split remote)

theorem pass4Go_remotes (lbuckets : List (String × List FileInfo))
    (rmap : List (String × List Nat)) (arr : List (Option FileInfo)) :
    evsRemotes (pass4Go lbuckets rmap arr).1 ++ (pass4Go lbuckets rmap arr).2.2.reduceOption ~
      arr.reduceOption := by
  induction lbuckets, rmap, arr using pass4Go.induct with
  | case1 rmap arr => simp [pass4Go, evsRemotes]
  | case2 h rest rmap arr i lf hlk ih =>
    simp only [pass4Go, hlk, evsRemotes_cons, evRemotes, List.append_assoc]
    exact (ih.append_left _).trans (peek_set_perm arr i)
  | case3 h rest rmap arr is lfs hne c hlk ih =>
    simp only [pass4Go, hlk, evsRemotes_cons, evRemotes, List.append_assoc]
    exact (ih.append_left _).trans (collectAll_perm is arr)
  | case4 h lfs rest rmap arr hlk ih =>
    simp only [pass4Go, hlk]
    exact ih

theorem pass4Go_locals (lbuckets : List (String × List FileInfo))
    (rmap : List (String × List Nat)) (arr : List (Option FileInfo)) :
    evsLocals (pass4Go lbuckets rmap arr).1 ++ (pass4Go lbuckets rmap arr).2.1 ~
      lbuckets.flatMap (·.2) := by
  induction lbuckets, rmap, arr using pass4Go.induct with
  | case1 rmap arr => simp [pass4Go, evsLocals]
  | case2 h rest rmap arr i lf hlk ih =>
    simp only [pass4Go, hlk, evsLocals_cons, evLocals, List.flatMap_cons, List.cons_append,
      List.singleton_append]
    exact ih.cons lf
  | case3 h rest rmap arr is lfs hne c hlk ih =>
    simp only [pass4Go, hlk, evsLocals_cons, evLocals, List.flatMap_cons, List.append_assoc,
      reduceOption_map_some']
    exact ih.append_left lfs
  | case4 h lfs rest rmap arr hlk ih =>
    simp only [pass4Go, hlk, List.flatMap_cons]
    exact perm_shift _ lfs _ _ ih

theorem pass4_locals (locl remote : List FileInfo) :
    evsLocals (matchCurrentLocalToHistoricalRemoteUsingHashed locl remote).1 ++
      (matchCurrentLocalToHistoricalRemoteUsingHashed locl remote).2.1 ~ locl := by
  simp only [matchCurrentLocalToHistoricalRemoteUsingHashed]
  have h1 := (pass4Go_locals (FilesToHashMap locl) (filesToHistoricHashMap remote)
    (remote.map some)).trans (FilesToHashMap_flat locl)
  exact (perm_shift _ (locl.filter (·.IsDeleted)) _ _ h1).trans (deleted_filter_split locl)

theorem pass4_remotes (locl remote : List FileInfo) :
    evsRemotes (matchCurrentLocalToHistoricalRemoteUsingHashed locl remote).1 ++
      (matchCurrentLocalToHistoricalRemoteUsingHashed locl remote).2.2 ~ remote := by
  simp only [matchCurrentLocalToHistoricalRemoteUsingHashed]
  have h := pass4Go_remotes (FilesToHashMap locl) (filesToHistoricHashMap remote)
    (remote.map some)
  rwa [reduceOption_map_some'] at h

/-! ### Pass 5 conservation (on non-panicking runs) -/

theorem pass5Conflict_conserve {is js : List Nat} {larr rarr : List (Option FileInfo)}
    {evs : List DiffEvent} {la ra : List (Option FileInfo)}
    (h : pass5Conflict is js larr rarr = .ok (evs, la, ra)) :
    (evsLocals evs ++ la.reduceOption ~ larr.reduceOption) ∧
    (evsRemotes evs ++ ra.reduceOption ~ rarr.reduceOption) := by
  simp only [pass5Conflict, Except.ok.injEq, Prod.mk.injEq] at h
  obtain ⟨h1, h2, h3⟩ := h
  subst h1
  subst h2
  subst h3
  constructor
  · simpa [evsLocals, evLocals, reduceOption_map_some'] using collectSome_perm is larr
  · simpa [evsRemotes, evRemotes, reduceOption_map_some'] using collectSome_perm js rarr

theorem pass5Step_single (i j : Nat) (larr rarr : List (Option FileInfo)) :
    pass5Step [i] (some [j]) larr rarr =
      (match larr.getD i none with
        | none => .error nilPanic
        | some lf =>
          if lf.IsDeleted then
            match rarr.getD j none with
            | none => .error nilPanic
            | some rf =>
              if rf.IsDeleted then
                .ok ([.unchanged lf rf], larr.set i none, rarr.set j none)
              else
                pass5Conflict [i] [j] larr rarr
          else
            pass5Conflict [i] [j] larr rarr) := rfl

theorem pass5Step_conserve {is : List Nat} {js : Option (List Nat)}
    {larr rarr : List (Option FileInfo)} {evs : List DiffEvent}
    {la ra : List (Option FileInfo)}
    (h : pass5Step is js larr rarr = .ok (evs, la, ra)) :
    (evsLocals evs ++ la.reduceOption ~ larr.reduceOption) ∧
    (evsRemotes evs ++ ra.reduceOption ~ rarr.reduceOption) := by
  cases js with
  | none =>
    unfold pass5Step at h
    simp only [Except.ok.injEq, Prod.mk.injEq] at h
    obtain ⟨h1, h2, h3⟩ := h
    subst h1
    subst h2
    subst h3
    constructor <;> simp [evsLocals, evsRemotes]
  | some js =>
    rcases is with _ | ⟨i, _ | ⟨i2, it⟩⟩ <;> rcases js with _ | ⟨j, _ | ⟨j2, jt⟩⟩ <;>
        try exact pass5Conflict_conserve h
    rw [pass5Step_single] at h
    split at h
    · simp at h
    · next lf hl =>
      split at h
      · next hld =>
        split at h
        · simp at h
        · next rf hr =>
          split at h
          · next hrd =>
            simp only [Except.ok.injEq, Prod.mk.injEq] at h
            obtain ⟨h1, h2, h3⟩ := h
            subst h1
            subst h2
            subst h3
            constructor
            · have hp := peek_set_perm larr i
              rw [hl] at hp
              simpa [evsLocals, evLocals] using hp
            · have hp := peek_set_perm rarr j
              rw [hr] at hp
              simpa [evsRemotes, evRemotes] using hp
          · exact pass5Conflict_conserve h
      · exact pass5Conflict_conserve h

theorem pass5Go_conserve :
    ∀ (lbuckets : List (String × List Nat)) (rmap : List (String × List Nat))
      (larr rarr : List (Option FileInfo)) (evs : List DiffEvent)
      (la ra : List (Option FileInfo)),
      pass5Go lbuckets rmap larr rarr = .ok (evs, la, ra) →
      (evsLocals evs ++ la.reduceOption ~ larr.reduceOption) ∧
      (evsRemotes evs ++ ra.reduceOption ~ rarr.reduceOption) := by
  intro lbuckets
  induction lbuckets with
  | nil =>
    intro rmap larr rarr evs la ra h
    simp only [pass5Go, Except.ok.injEq, Prod.mk.injEq] at h
    obtain ⟨h1, h2, h3⟩ := h
    subst h1
    subst h2
    subst h3
    constructor <;> simp [evsLocals, evsRemotes]
  | cons b rest ih =>
    intro rmap larr rarr evs la ra h
    obtain ⟨hh, is⟩ := b
    simp only [pass5Go] at h
    split at h
    · simp at h
    · next evs1 l1 r1 hstep =>
      split at h
      · simp at h
      · next evs2 l2 r2 hrec =>
        simp only [Except.ok.injEq, Prod.mk.injEq] at h
        obtain ⟨h1, h2, h3⟩ := h
        subst h1
        subst h2
        subst h3
        obtain ⟨hs1, hs2⟩ := pass5Step_conserve hstep
        obtain ⟨hi1, hi2⟩ := ih rmap l1 r1 evs2 l2 r2 hrec
        constructor
        · calc evsLocals (evs1 ++ evs2) ++ l2.reduceOption
              = evsLocals evs1 ++ (evsLocals evs2 ++ l2.reduceOption) := by
                rw [evsLocals_append, List.append_assoc]
            _ ~ evsLocals evs1 ++ l1.reduceOption := hi1.append_left _
            _ ~ larr.reduceOption := hs1
        · calc evsRemotes (evs1 ++ evs2) ++ r2.reduceOption
              = evsRemotes evs1 ++ (evsRemotes evs2 ++ r2.reduceOption) := by
                rw [evsRemotes_append, List.append_assoc]
            _ ~ evsRemotes evs1 ++ r1.reduceOption := hi2.append_left _
            _ ~ rarr.reduceOption := hs2

theorem pass5_conserve {locl remote : List FileInfo} {evs : List DiffEvent}
    {la ra : List FileInfo}
    (h : matchUsingHistoricalHashes locl remote = .ok (evs, la, ra)) :
    (evsLocals evs ++ la ~ locl) ∧ (evsRemotes evs ++ ra ~ remote) := by
  unfold matchUsingHistoricalHashes at h
  split at h
  · simp at h
  · next evs' la' ra' hgo =>
    simp only [Except.ok.injEq, Prod.mk.injEq] at h
    obtain ⟨h1, h2, h3⟩ := h
    subst h1
    subst h2
    subst h3
    obtain ⟨c1, c2⟩ := pass5Go_conserve _ _ _ _ _ _ _ hgo
    rw [reduceOption_map_some'] at c1 c2
    exact ⟨c1, c2⟩

/-! ### Pass 6 conservation -/

theorem pass6Go_locals (lmap rmap : List (String × FileInfo)) :
    evsLocals (pass6Go lmap rmap).1 ++ (pass6Go lmap rmap).2.1 ~ lmap.map (·.2) := by
  induction lmap, rmap using pass6Go.induct with
  | case1 rmap => simp [pass6Go, evsLocals]
  | case2 p lf rest rmap rf hlk ih =>
    simp only [pass6Go, hlk, evsLocals_cons, evLocals, List.map_cons, List.cons_append,
      List.singleton_append]
    exact ih.cons lf
  | case3 p lf rest rmap hlk ih =>
    simp only [pass6Go, hlk, List.map_cons]
    exact List.perm_middle.trans (ih.cons lf)

theorem pass6Go_remotes (lmap rmap : List (String × FileInfo)) :
    evsRemotes (pass6Go lmap rmap).1 ++ (pass6Go lmap rmap).2.2 ~ rmap.map (·.2) := by
  induction lmap, rmap using pass6Go.induct with
  | case1 rmap => simp [pass6Go, evsRemotes]
  | case2 p lf rest rmap rf hlk ih =>
    simp only [pass6Go, hlk, evsRemotes_cons, evRemotes, List.cons_append, List.singleton_append]
    exact (ih.cons rf).trans (lookup_erase_vals hlk).symm
  | case3 p lf rest rmap hlk ih =>
    simp only [pass6Go, hlk]
    exact ih

/-- Distinct current paths among the non-deleted files: the repository
invariant of §3 of the spec. -/
def PDistinct (l : List FileInfo) : Prop :=
  ((l.filter (fun f => !f.IsDeleted)).map FileInfo.Path).Nodup

instance (l : List FileInfo) : Decidable (PDistinct l) :=
  inferInstanceAs
    (Decidable (((l.filter (fun f : FileInfo => !f.IsDeleted)).map FileInfo.Path).Nodup))

theorem lookupKey_append_single {β : Type} (m : List (String × β)) (p k : String) (v : β) :
    lookupKey (m ++ [(p, v)]) k =
      match lookupKey m k with
      | some w => some w
      | none => if p = k then some v else none := by
  induction m with
  | nil => simp [lookupKey]
  | cons q rest ih =>
    obtain ⟨k', w⟩ := q
    by_cases hk : k' = k
    · simp [lookupKey, hk]
    · simp [lookupKey, hk, ih]

theorem pathMapInsert_fresh {m : List (String × FileInfo)} {k : String} {f : FileInfo}
    (h : lookupKey m k = none) : pathMapInsert m k f = m ++ [(k, f)] := by
  induction m with
  | nil => simp [pathMapInsert]
  | cons q rest ih =>
    obtain ⟨k', w⟩ := q
    by_cases hk : k' = k
    · rw [lookupKey, if_pos hk] at h
      simp at h
    · rw [lookupKey, if_neg hk] at h
      simp [pathMapInsert, hk, ih h]

theorem pathMapFold (files : List FileInfo) (m : List (String × FileInfo))
    (hfresh : ∀ f ∈ files, f.IsDeleted = false → lookupKey m f.Path = none)
    (hnd : PDistinct files) :
    ((files.foldl (fun m f => if f.IsDeleted then m else pathMapInsert m f.Path f) m).map
        (·.2)) =
      m.map (·.2) ++ files.filter (fun f => !f.IsDeleted) := by
  induction files generalizing m with
  | nil => simp
  | cons f fs ih =>
    simp only [List.foldl_cons, List.filter_cons]
    cases hd : f.IsDeleted with
    | true =>
      have hnd' : PDistinct fs := by
        unfold PDistinct at hnd ⊢
        simpa [List.filter_cons, hd] using hnd
      simpa [hd] using ih m (fun g hg hgd => hfresh g (List.mem_cons_of_mem f hg) hgd) hnd'
    | false =>
      have hfr : lookupKey m f.Path = none := hfresh f (List.mem_cons_self f fs) hd
      have hnd1 : f.Path ∉ (fs.filter (fun g => !g.IsDeleted)).map FileInfo.Path ∧
          ((fs.filter (fun g => !g.IsDeleted)).map FileInfo.Path).Nodup := by
        unfold PDistinct at hnd
        rw [List.filter_cons] at hnd
        simp only [hd, Bool.not_false, if_pos, List.map_cons, List.nodup_cons] at hnd
        exact hnd
      have hfresh' : ∀ g ∈ fs, g.IsDeleted = false →
          lookupKey (m ++ [(f.Path, f)]) g.Path = none := by
        intro g hg hgd
        rw [lookupKey_append_single, hfresh g (List.mem_cons_of_mem f hg) hgd]
        have hne : ¬(f.Path = g.Path) := by
          intro hcon
          exact hnd1.1 (List.mem_map.mpr ⟨g, List.mem_filter.mpr ⟨hg, by simp [hgd]⟩, hcon.symm⟩)
        simp [hne]
      have hrec := ih (m ++ [(f.Path, f)]) hfresh' hnd1.2
      simp only [hd, Bool.false_eq_true, if_false, Bool.not_false]
      rw [pathMapInsert_fresh hfr, hrec]
      simp

theorem filesToPathMap_vals (files : List FileInfo) (hnd : PDistinct files) :
    (filesToPathMap files).map (·.2) = files.filter (fun f => !f.IsDeleted) := by
  simpa [filesToPathMap] using pathMapFold files [] (by simp [lookupKey]) hnd

theorem pass6_locals (locl remote : List FileInfo) (hnd : PDistinct locl) :
    evsLocals (matchUsingPath locl remote).1 ++ (matchUsingPath locl remote).2.1 ~ locl := by
  simp only [matchUsingPath]
  have h1 := pass6Go_locals (filesToPathMap locl) (filesToPathMap remote)
  rw [filesToPathMap_vals locl hnd] at h1
  exact (perm_shift _ (locl.filter (·.IsDeleted)) _ _ h1).trans (deleted_filter_split locl)

theorem pass6_remotes (locl remote : List FileInfo) (hnd : PDistinct remote) :
    evsRemotes (matchUsingPath locl remote).1 ++ (matchUsingPath locl remote).2.2 ~ remote := by
  simp only [matchUsingPath]
  have h1 := pass6Go_remotes (filesToPathMap locl) (filesToPathMap remote)
  rw [filesToPathMap_vals remote hnd] at h1
  exact (perm_shift _ (remote.filter (·.IsDeleted)) _ _ h1).trans (deleted_filter_split remote)

/-! ### Terminal singletons -/

theorem evsLocals_terminal (l r : List FileInfo) : evsLocals (terminalEvents l r) = l := by
  unfold terminalEvents
  rw [evsLocals_append]
  have h1 : evsLocals (l.map fun f => if f.IsDeleted then .localOld f else .localOnly f) = l := by
    induction l with
    | nil => rfl
    | cons f fs ih =>
      simp only [List.map_cons, evsLocals_cons]
      cases hd : f.IsDeleted <;> simp [hd, evLocals, ih]
  have h2 : evsLocals (r.map fun f => if f.IsDeleted then .remoteOld f else .remoteOnly f) = [] := by
    induction r with
    | nil => rfl
    | cons f fs ih =>
      simp only [List.map_cons, evsLocals_cons]
      cases hd : f.IsDeleted <;> simp [hd, evLocals, ih]
  rw [h1, h2, List.append_nil]

theorem evsRemotes_terminal (l r : List FileInfo) : evsRemotes (terminalEvents l r) = r := by
  unfold terminalEvents
  rw [evsRemotes_append]
  have h1 : evsRemotes (l.map fun f => if f.IsDeleted then .localOld f else .localOnly f) = [] := by
    induction l with
    | nil => rfl
    | cons f fs ih =>
      simp only [List.map_cons, evsRemotes_cons]
      cases hd : f.IsDeleted <;> simp [hd, evRemotes, ih]
  have h2 : evsRemotes (r.map fun f => if f.IsDeleted then .remoteOld f else .remoteOnly f) = r := by
    induction r with
    | nil => rfl
    | cons f fs ih =>
      simp only [List.map_cons, evsRemotes_cons]
      cases hd : f.IsDeleted <;> simp [hd, evRemotes, ih]
  rw [h1, h2, List.nil_append]

/-! ### Permutation and distinctness plumbing -/

theorem subperm_of_conserve {E out inp : List FileInfo} (h : E ++ out ~ inp) : out <+~ inp :=
  ((List.sublist_append_right E out).subperm).trans h.subperm

theorem PDistinct_of_subperm {a b : List FileInfo} (hs : a <+~ b) (h : PDistinct b) :
    PDistinct a := by
  obtain ⟨c, hperm, hsub⟩ := hs
  unfold PDistinct at *
  have h2 : ((c.filter (fun f => !f.IsDeleted)).map FileInfo.Path).Nodup :=
    h.sublist ((hsub.filter _).map _)
  exact ((hperm.filter _).map _).nodup_iff.mp h2

theorem conserve_chain {E1 E2 E3 E4 E5 E6 T l1 l2 l3 l4 l5 l6 A : List FileInfo}
    (h1 : E1 ++ l1 ~ A) (h2 : E2 ++ l2 ~ l1) (h3 : E3 ++ l3 ~ l2) (h4 : E4 ++ l4 ~ l3)
    (h5 : E5 ++ l5 ~ l4) (h6 : E6 ++ l6 ~ l5) (hT : T = l6) :
    E1 ++ (E2 ++ (E3 ++ (E4 ++ (E5 ++ (E6 ++ T))))) ~ A := by
  rw [hT]
  calc E1 ++ (E2 ++ (E3 ++ (E4 ++ (E5 ++ (E6 ++ l6)))))
      ~ E1 ++ (E2 ++ (E3 ++ (E4 ++ (E5 ++ l5)))) :=
        List.Perm.append_left _ ((List.Perm.append_left _ ((List.Perm.append_left _ ((List.Perm.append_left _ ((List.Perm.append_left _ h6))))))))
    _ ~ E1 ++ (E2 ++ (E3 ++ (E4 ++ l4))) :=
        List.Perm.append_left _ (List.Perm.append_left _ (List.Perm.append_left _ (List.Perm.append_left _ h5)))
    _ ~ E1 ++ (E2 ++ (E3 ++ l3)) :=
        List.Perm.append_left _ (List.Perm.append_left _ (List.Perm.append_left _ h4))
    _ ~ E1 ++ (E2 ++ l2) := List.Perm.append_left _ (List.Perm.append_left _ h3)
    _ ~ E1 ++ l1 := List.Perm.append_left _ h2
    _ ~ A := h1

/-! ## C1: the diff outcomes partition the two repositories -/

/-- C1 as stated: one run of the diff engine emits every FileInfo of
each side in exactly one callback (members of a `ConflictHash` counted
once): the local mentions are a permutation of the local repository and
likewise for the remote side. -/
def claimC1 : Prop :=
  ∀ A B : List FileInfo, ∃ evs, Diff A B = .ok evs ∧ evsLocals evs ~ A ∧ evsRemotes evs ~ B

/-- A deleted file with two distinct historical checksums. -/
def delTwoHashes : FileInfo := ⟨[⟨"p", 1, 1, "H1"⟩, ⟨"p", 1, 2, "H2"⟩, ⟨"p", 0, 3, ""⟩]⟩

/-- C1, counterexample: when both sides hold a deleted file with two
distinct historical checksums, pass 5 matches it under one checksum,
blanks both slots, then dereferences the blanked slot under the other
checksum — a nil-pointer panic.  The run dies and the files are never
emitted. -/
theorem C1_counterexample : ¬ claimC1 := by
  intro h
  obtain ⟨evs, heq, _⟩ := h [delTwoHashes] [delTwoHashes]
  have hrun : Diff [delTwoHashes] [delTwoHashes] = .error nilPanic := by rfl
  rw [hrun] at heq
  exact absurd heq (by simp)

/-- C1, amended: for repositories whose non-deleted current paths are
distinct (the §3 invariant), every run of the diff engine that
completes without a nil-pointer panic emits every FileInfo of each side
in exactly one callback (`ConflictHash` members counted once). -/
theorem C1_theorem (A B : List FileInfo) (hA : PDistinct A) (hB : PDistinct B)
    (evs : List DiffEvent) (h : Diff A B = .ok evs) :
    evsLocals evs ~ A ∧ evsRemotes evs ~ B := by
  simp only [Diff] at h
  revert h
  generalize hP1 : matchRemoteToLocalUsingPathAndCurrentHashes A B = P1
  generalize hP2 : matchRemoteToLocalUsingCurrentHashes P1.2.1 P1.2.2 = P2
  generalize hP3 : matchCurrentRemoteToHistoricalLocalUsingHashes P2.2.1 P2.2.2 = P3
  generalize hP4 : matchCurrentLocalToHistoricalRemoteUsingHashed P3.2.1 P3.2.2 = P4
  intro h
  have l1 : evsLocals P1.1 ++ P1.2.1 ~ A := hP1 ▸ pass1_locals A B
  have r1 : evsRemotes P1.1 ++ P1.2.2 ~ B := hP1 ▸ pass1_remotes A B
  have l2 : evsLocals P2.1 ++ P2.2.1 ~ P1.2.1 := hP2 ▸ pass2_locals P1.2.1 P1.2.2
  have r2 : evsRemotes P2.1 ++ P2.2.2 ~ P1.2.2 := hP2 ▸ pass2_remotes P1.2.1 P1.2.2
  have l3 : evsLocals P3.1 ++ P3.2.1 ~ P2.2.1 := hP3 ▸ pass3_locals P2.2.1 P2.2.2
  have r3 : evsRemotes P3.1 ++ P3.2.2 ~ P2.2.2 := hP3 ▸ pass3_remotes P2.2.1 P2.2.2
  have l4 : evsLocals P4.1 ++ P4.2.1 ~ P3.2.1 := hP4 ▸ pass4_locals P3.2.1 P3.2.2
  have r4 : evsRemotes P4.1 ++ P4.2.2 ~ P3.2.2 := hP4 ▸ pass4_remotes P3.2.1 P3.2.2
  split at h
  · simp at h
  · next p5 hp5 =>
    obtain ⟨p5evs, p5l, p5r⟩ := p5
    simp only [Except.ok.injEq] at h
    subst h
    obtain ⟨c5l, c5r⟩ := pass5_conserve hp5
    have hl5 : PDistinct p5l :=
      PDistinct_of_subperm (subperm_of_conserve c5l)
        (PDistinct_of_subperm (subperm_of_conserve l4)
          (PDistinct_of_subperm (subperm_of_conserve l3)
            (PDistinct_of_subperm (subperm_of_conserve l2)
              (PDistinct_of_subperm (subperm_of_conserve l1) hA))))
    have hr5 : PDistinct p5r :=
      PDistinct_of_subperm (subperm_of_conserve c5r)
        (PDistinct_of_subperm (subperm_of_conserve r4)
          (PDistinct_of_subperm (subperm_of_conserve r3)
            (PDistinct_of_subperm (subperm_of_conserve r2)
              (PDistinct_of_subperm (subperm_of_conserve r1) hB))))
    have l6 := pass6_locals p5l p5r hl5
    have r6 := pass6_remotes p5l p5r hr5
    constructor
    · simp only [evsLocals_append, List.append_assoc]
      exact conserve_chain l1 l2 l3 l4 c5l l6 (evsLocals_terminal _ _)
    · simp only [evsRemotes_append, List.append_assoc]
      exact conserve_chain r1 r2 r3 r4 c5r r6 (evsRemotes_terminal _ _)

/-- C1, witness for the amended theorem: the rename scenario of §8 of
the spec, a single `Moved` callback covering both files. -/
theorem C1_witness :
    PDistinct [movedLocalEx] ∧ PDistinct [movedRemoteEx] ∧
    Diff [movedLocalEx] [movedRemoteEx] = .ok [.moved movedLocalEx movedRemoteEx] ∧
    (evsLocals [.moved movedLocalEx movedRemoteEx] ~ [movedLocalEx] ∧
      evsRemotes [.moved movedLocalEx movedRemoteEx] ~ [movedRemoteEx]) :=
  ⟨by decide, by decide, by rfl,
    C1_theorem [movedLocalEx] [movedRemoteEx] (by decide) (by decide) _ (by rfl)⟩

/-! ## C2: deleted files and passes 1–4

The first four passes composed, with the events they emit and the
residual lists they hand to pass 5. -/

def diffPasses14 (locl remote : List FileInfo) :
    List DiffEvent × List FileInfo × List FileInfo :=
  let p1 := matchRemoteToLocalUsingPathAndCurrentHashes locl remote
  let p2 := matchRemoteToLocalUsingCurrentHashes p1.2.1 p1.2.2
  let p3 := matchCurrentRemoteToHistoricalLocalUsingHashes p2.2.1 p2.2.2
  let p4 := matchCurrentLocalToHistoricalRemoteUsingHashed p3.2.1 p3.2.2
  (p1.1 ++ p2.1 ++ p3.1 ++ p4.1, p4.2.1, p4.2.2)

/-- C2 as stated: passes 1 through 4 never mention a deleted file in an
emitted callback, and the deleted files of both sides all survive into
the residual lists handed to pass 5. -/
def claimC2 : Prop :=
  ∀ locl remote : List FileInfo,
    (∀ g ∈ evsLocals (diffPasses14 locl remote).1, g.IsDeleted = false) ∧
    (∀ g ∈ evsRemotes (diffPasses14 locl remote).1, g.IsDeleted = false) ∧
    (diffPasses14 locl remote).2.1.filter (·.IsDeleted) ~ locl.filter (·.IsDeleted) ∧
    (diffPasses14 locl remote).2.2.filter (·.IsDeleted) ~ remote.filter (·.IsDeleted)

/-- A non-deleted file at path `"q"` whose current checksum `"H"` is a
historical checksum of the deleted `exDelH`. -/
def remCurH : FileInfo := ⟨[⟨"q", 1, 5, "H"⟩]⟩

/-- Conservation of one pass restricted to the deleted files: when the
pass's event mentions are all non-deleted, the deleted files of the
input reappear exactly in the residual. -/
theorem filter_deleted_perm {E out inp : List FileInfo}
    (hcons : E ++ out ~ inp) (hE : ∀ g ∈ E, g.IsDeleted = false) :
    out.filter (·.IsDeleted) ~ inp.filter (·.IsDeleted) := by
  have h := hcons.filter (·.IsDeleted)
  rw [List.filter_append] at h
  have hnil : E.filter (·.IsDeleted) = [] := by
    rw [List.filter_eq_nil_iff]
    intro a ha
    simp [hE a ha]
  rwa [hnil, List.nil_append] at h

theorem pass2Go_mentions (lmap rmap : List (String × List FileInfo)) :
    (∀ p ∈ lmap, ∀ g ∈ p.2, g.IsDeleted = false) →
    (∀ p ∈ rmap, ∀ g ∈ p.2, g.IsDeleted = false) →
    (∀ g ∈ evsLocals (pass2Go lmap rmap).1, g.IsDeleted = false) ∧
    (∀ g ∈ evsRemotes (pass2Go lmap rmap).1, g.IsDeleted = false) := by
  induction lmap, rmap using pass2Go.induct with
  | case1 rmap =>
    intro _ _
    constructor <;> intro g hg <;> simp [pass2Go, evsLocals, evsRemotes] at hg
  | case2 h rest rmap lf rf hlk ih =>
    intro hL hR
    have hlf : lf.IsDeleted = false :=
      hL (h, [lf]) (List.mem_cons_self _ _) lf (List.mem_cons_self _ _)
    have hrf : rf.IsDeleted = false := by
      obtain ⟨k', hm⟩ := lookupKey_mem hlk
      exact hR (k', [rf]) hm rf (List.mem_cons_self _ _)
    have ih' := ih (fun p hp => hL p (List.mem_cons_of_mem _ hp))
      (fun p hp => hR p (eraseKey_mem p hp))
    constructor <;> intro g hg
    · simp only [pass2Go, hlk, evsLocals_cons, evLocals, List.cons_append,
        List.singleton_append, List.mem_cons] at hg
      rcases hg with rfl | hg
      · exact hlf
      · exact ih'.1 g hg
    · simp only [pass2Go, hlk, evsRemotes_cons, evRemotes, List.cons_append,
        List.singleton_append, List.mem_cons] at hg
      rcases hg with rfl | hg
      · exact hrf
      · exact ih'.2 g hg
  | case3 h lfs rest rmap rfs hlk hne ih =>
    intro hL hR
    have ih' := ih (fun p hp => hL p (List.mem_cons_of_mem _ hp))
      (fun p hp => hR p (eraseKey_mem p hp))
    constructor <;> intro g hg
    · simp only [pass2Go, hlk] at hg
      exact ih'.1 g hg
    · simp only [pass2Go, hlk] at hg
      exact ih'.2 g hg
  | case4 h lfs rest rmap hlk ih =>
    intro hL hR
    have ih' := ih (fun p hp => hL p (List.mem_cons_of_mem _ hp)) hR
    constructor <;> intro g hg
    · simp only [pass2Go, hlk] at hg
      exact ih'.1 g hg
    · simp only [pass2Go, hlk] at hg
      exact ih'.2 g hg

theorem pass2_mentions_nonDeleted (locl remote : List FileInfo) :
    (∀ g ∈ evsLocals (matchRemoteToLocalUsingCurrentHashes locl remote).1,
      g.IsDeleted = false) ∧
    (∀ g ∈ evsRemotes (matchRemoteToLocalUsingCurrentHashes locl remote).1,
      g.IsDeleted = false) := by
  simp only [matchRemoteToLocalUsingCurrentHashes]
  exact pass2Go_mentions _ _ (hashMap_buckets_nonDeleted locl) (hashMap_buckets_nonDeleted remote)

theorem pass3Go_remote_mentions (rbuckets : List (String × List FileInfo))
    (lmap : List (String × List Nat)) (arr : List (Option FileInfo)) :
    (∀ p ∈ rbuckets, ∀ g ∈ p.2, g.IsDeleted = false) →
    ∀ g ∈ evsRemotes (pass3Go rbuckets lmap arr).1, g.IsDeleted = false := by
  induction rbuckets, lmap, arr using pass3Go.induct with
  | case1 lmap arr =>
    intro _ g hg
    simp [pass3Go, evsRemotes] at hg
  | case2 h rest lmap arr i rf hlk ih =>
    intro hR g hg
    simp only [pass3Go, hlk, evsRemotes_cons, evRemotes, List.cons_append,
      List.singleton_append, List.mem_cons] at hg
    rcases hg with rfl | hg
    · exact hR (h, [g]) (List.mem_cons_self _ _) g (List.mem_cons_self _ _)
    · exact ih (fun p hp => hR p (List.mem_cons_of_mem _ hp)) g hg
  | case3 h rest lmap arr is rfs hne c hlk ih =>
    intro hR g hg
    simp only [pass3Go, hlk, evsRemotes_cons, evRemotes, reduceOption_map_some',
      List.mem_append] at hg
    rcases hg with hg | hg
    · exact hR (h, rfs) (List.mem_cons_self _ _) g hg
    · exact ih (fun p hp => hR p (List.mem_cons_of_mem _ hp)) g hg
  | case4 h rfs rest lmap arr hlk ih =>
    intro hR g hg
    simp only [pass3Go, hlk] at hg
    exact ih (fun p hp => hR p (List.mem_cons_of_mem _ hp)) g hg

theorem pass3_remote_mentions_nonDeleted (locl remote : List FileInfo) :
    ∀ g ∈ evsRemotes (matchCurrentRemoteToHistoricalLocalUsingHashes locl remote).1,
      g.IsDeleted = false := by
  simp only [matchCurrentRemoteToHistoricalLocalUsingHashes]
  exact pass3Go_remote_mentions _ _ _ (hashMap_buckets_nonDeleted remote)

theorem pass4Go_local_mentions (lbuckets : List (String × List FileInfo))
    (rmap : List (String × List Nat)) (arr : List (Option FileInfo)) :
    (∀ p ∈ lbuckets, ∀ g ∈ p.2, g.IsDeleted = false) →
    ∀ g ∈ evsLocals (pass4Go lbuckets rmap arr).1, g.IsDeleted = false := by
  induction lbuckets, rmap, arr using pass4Go.induct with
  | case1 rmap arr =>
    intro _ g hg
    simp [pass4Go, evsLocals] at hg
  | case2 h rest rmap arr i lf hlk ih =>
    intro hL g hg
    simp only [pass4Go, hlk, evsLocals_cons, evLocals, List.cons_append,
      List.singleton_append, List.mem_cons] at hg
    rcases hg with rfl | hg
    · exact hL (h, [g]) (List.mem_cons_self _ _) g (List.mem_cons_self _ _)
    · exact ih (fun p hp => hL p (List.mem_cons_of_mem _ hp)) g hg
  | case3 h rest rmap arr is lfs hne c hlk ih =>
    intro hL g hg
    simp only [pass4Go, hlk, evsLocals_cons, evLocals, reduceOption_map_some',
      List.mem_append] at hg
    rcases hg with hg | hg
    · exact hL (h, lfs) (List.mem_cons_self _ _) g hg
    · exact ih (fun p hp => hL p (List.mem_cons_of_mem _ hp)) g hg
  | case4 h lfs rest rmap arr hlk ih =>
    intro hL g hg
    simp only [pass4Go, hlk] at hg
    exact ih (fun p hp => hL p (List.mem_cons_of_mem _ hp)) g hg

theorem pass4_local_mentions_nonDeleted (locl remote : List FileInfo) :
    ∀ g ∈ evsLocals (matchCurrentLocalToHistoricalRemoteUsingHashed locl remote).1,
      g.IsDeleted = false := by
  simp only [matchCurrentLocalToHistoricalRemoteUsingHashed]
  exact pass4Go_local_mentions _ _ _ (hashMap_buckets_nonDeleted locl)

/-- C2, counterexample: the local side holds only the deleted `exDelH`
(historical checksum `"H"`), the remote side only the non-deleted
`remCurH` with current checksum `"H"`.  `filesToHistoricHashMap`
indexes the deleted local's history, so pass 3 matches the pair and
emits `LocalChanged(exDelH, remCurH)` — the deleted file is consumed by
pass 3, not passed through to pass 5. -/
theorem C2_counterexample : ¬ claimC2 := by
  intro h
  have h1 := (h [exDelH] [remCurH]).1 exDelH (by decide)
  exact absurd h1 (by decide)

/-- C2, amended: passes 1 and 2 indeed never mention a deleted file and
pass every deleted file through on both sides; but the historical hash
maps of passes 3 and 4 include deleted files, so only the *current*
side of each is protected: pass 3 neither mentions nor consumes deleted
remotes, pass 4 neither mentions nor consumes deleted locals, while a
deleted local can be consumed by pass 3 and a deleted remote by pass 4. -/
theorem C2_theorem :
    ∀ locl remote : List FileInfo,
      (∀ g ∈ evsLocals (matchRemoteToLocalUsingPathAndCurrentHashes locl remote).1,
        g.IsDeleted = false) ∧
      (∀ g ∈ evsRemotes (matchRemoteToLocalUsingPathAndCurrentHashes locl remote).1,
        g.IsDeleted = false) ∧
      (matchRemoteToLocalUsingPathAndCurrentHashes locl remote).2.1.filter (·.IsDeleted) ~
        locl.filter (·.IsDeleted) ∧
      (matchRemoteToLocalUsingPathAndCurrentHashes locl remote).2.2.filter (·.IsDeleted) ~
        remote.filter (·.IsDeleted) ∧
      (∀ g ∈ evsLocals (matchRemoteToLocalUsingCurrentHashes locl remote).1,
        g.IsDeleted = false) ∧
      (∀ g ∈ evsRemotes (matchRemoteToLocalUsingCurrentHashes locl remote).1,
        g.IsDeleted = false) ∧
      (matchRemoteToLocalUsingCurrentHashes locl remote).2.1.filter (·.IsDeleted) ~
        locl.filter (·.IsDeleted) ∧
      (matchRemoteToLocalUsingCurrentHashes locl remote).2.2.filter (·.IsDeleted) ~
        remote.filter (·.IsDeleted) ∧
      (∀ g ∈ evsRemotes (matchCurrentRemoteToHistoricalLocalUsingHashes locl remote).1,
        g.IsDeleted = false) ∧
      (matchCurrentRemoteToHistoricalLocalUsingHashes locl remote).2.2.filter (·.IsDeleted) ~
        remote.filter (·.IsDeleted) ∧
      (∀ g ∈ evsLocals (matchCurrentLocalToHistoricalRemoteUsingHashed locl remote).1,
        g.IsDeleted = false) ∧
      (matchCurrentLocalToHistoricalRemoteUsingHashed locl remote).2.1.filter (·.IsDeleted) ~
        locl.filter (·.IsDeleted) := by
  intro locl remote
  have p1m := pass1_mentions_nonDeleted locl remote
  have p2m := pass2_mentions_nonDeleted locl remote
  refine ⟨p1m.1, p1m.2, filter_deleted_perm (pass1_locals locl remote) p1m.1,
    filter_deleted_perm (pass1_remotes locl remote) p1m.2,
    p2m.1, p2m.2, filter_deleted_perm (pass2_locals locl remote) p2m.1,
    filter_deleted_perm (pass2_remotes locl remote) p2m.2,
    pass3_remote_mentions_nonDeleted locl remote,
    filter_deleted_perm (pass3_remotes locl remote)
      (pass3_remote_mentions_nonDeleted locl remote),
    pass4_local_mentions_nonDeleted locl remote,
    filter_deleted_perm (pass4_locals locl remote)
      (pass4_local_mentions_nonDeleted locl remote)⟩

/-- C2, witness for the amended theorem at the rename scenario: the pass-1
`Moved` pair mentions the non-deleted local file. -/
theorem C2_witness :
    movedLocalEx ∈
      evsLocals (matchRemoteToLocalUsingCurrentHashes [movedLocalEx] [movedRemoteEx]).1 ∧
    movedLocalEx.IsDeleted = false :=
  ⟨by decide, (C2_theorem [movedLocalEx] [movedRemoteEx]).2.2.2.2.1 movedLocalEx (by decide)⟩

/-! ## C3: exactly which pairs pass 1 emits

`qualifies` is the claim's pairing condition and `pairEvent` the
callback it expects for a qualifying pair. -/

def qualifies (a b : FileInfo) : Bool :=
  a.Path == b.Path && !a.IsDeleted && !b.IsDeleted && a.Checksum == b.Checksum

def pairEvent (a b : FileInfo) : DiffEvent :=
  if a.Time != b.Time then .metaDataChanged a b else .unchanged a b

/-- Strict order on current paths. -/
def pathLt (a b : FileInfo) : Prop := strLt a.Path b.Path = true

/-- C3 as stated: pass 1 emits the expected callback for every
qualifying pair, emits nothing else, and passes every other file of
either side through to pass 2. -/
def claimC3 : Prop :=
  ∀ locl remote : List FileInfo,
    (∀ a b, a ∈ locl → b ∈ remote → qualifies a b = true →
      pairEvent a b ∈ (matchRemoteToLocalUsingPathAndCurrentHashes locl remote).1) ∧
    (∀ e ∈ (matchRemoteToLocalUsingPathAndCurrentHashes locl remote).1,
      ∃ a b, a ∈ locl ∧ b ∈ remote ∧ qualifies a b = true ∧ e = pairEvent a b) ∧
    evsLocals (matchRemoteToLocalUsingPathAndCurrentHashes locl remote).1 ++
      (matchRemoteToLocalUsingPathAndCurrentHashes locl remote).2.1 ~ locl ∧
    evsRemotes (matchRemoteToLocalUsingPathAndCurrentHashes locl remote).1 ++
      (matchRemoteToLocalUsingPathAndCurrentHashes locl remote).2.2 ~ remote

/-- A deleted file that once lived at path `"p"`. -/
def fileD : FileInfo := ⟨[⟨"p", 1, 1, "HD"⟩, ⟨"p", 0, 2, ""⟩]⟩

/-- A live file at path `"p"` with checksum `"HF"`. -/
def fileF : FileInfo := ⟨[⟨"p", 1, 1, "HF"⟩]⟩

/-- The remote twin of `fileF`: same path, checksum and time. -/
def fileG : FileInfo := ⟨[⟨"p", 1, 1, "HF"⟩]⟩

/-! ### More facts about the path order -/

theorem charsLt_irrefl : ∀ as : List Char, charsLt as as = false := by
  intro as
  induction as with
  | nil => rfl
  | cons a as ih => simp [charsLt, ih]

theorem charsLt_asymm : ∀ {as bs : List Char}, charsLt as bs = true → charsLt bs as = false := by
  intro as
  induction as with
  | nil =>
    intro bs h
    cases bs with
    | nil => simp [charsLt] at h
    | cons b bs => rfl
  | cons a as ih =>
    intro bs h
    cases bs with
    | nil => simp [charsLt] at h
    | cons b bs =>
      simp only [charsLt] at h ⊢
      by_cases hab : a < b
      · have hba : ¬ b < a := lt_asymm hab
        simp [hab, hba]
      · by_cases hba : b < a
        · simp [hab, hba] at h
        · simp only [hab, hba, if_false] at h ⊢
          exact ih h

theorem charsLt_trans : ∀ {as bs cs : List Char}, charsLt as bs = true →
    charsLt bs cs = true → charsLt as cs = true := by
  intro as
  induction as with
  | nil =>
    intro bs cs h1 h2
    cases bs with
    | nil => simp [charsLt] at h1
    | cons b bs =>
      cases cs with
      | nil => simp [charsLt] at h2
      | cons c cs => rfl
  | cons a as ih =>
    intro bs cs h1 h2
    cases bs with
    | nil => simp [charsLt] at h1
    | cons b bs =>
      cases cs with
      | nil => simp [charsLt] at h2
      | cons c cs =>
        simp only [charsLt] at h1 h2 ⊢
        by_cases hab : a < b
        · by_cases hbc : b < c
          · simp [lt_trans hab hbc]
          · by_cases hcb : c < b
            · simp [hbc, hcb] at h2
            · have hbc' : b = c := le_antisymm (not_lt.mp hcb) (not_lt.mp hbc)
              subst hbc'
              simp [hab]
        · by_cases hba : b < a
          · simp [hab, hba] at h1
          · have hab' : a = b := le_antisymm (not_lt.mp hba) (not_lt.mp hab)
            subst hab'
            by_cases hac : a < c
            · simp [hac]
            · by_cases hca : c < a
              · simp [hac, hca] at h2
              · have hac' : a = c := le_antisymm (not_lt.mp hca) (not_lt.mp hac)
                subst hac'
                simp at h1 h2 ⊢
                exact ih h1 h2

theorem strLt_irrefl (a : String) : strLt a a = false := charsLt_irrefl a.data

theorem strLt_asymm {a b : String} (h : strLt a b = true) : strLt b a = false :=
  charsLt_asymm h

theorem strLt_trans {a b c : String} (h1 : strLt a b = true) (h2 : strLt b c = true) :
    strLt a c = true := charsLt_trans h1 h2

theorem strLt_total (a b : String) : strLt b a = false ∨ strLt a b = false := by
  cases h : strLt b a with
  | false => exact Or.inl rfl
  | true => exact Or.inr (strLt_asymm h)

theorem strLt_of_not_gt_ne {a b : String} (h1 : strLt b a = false) (h2 : a ≠ b) :
    strLt a b = true := by
  cases h : strLt a b with
  | true => rfl
  | false => exact absurd (strLt_eq_of_not_lt h h1) h2

instance : IsTotal FileInfo (fun a b => strLt b.Path a.Path = false) :=
  ⟨fun a b => strLt_total a.Path b.Path⟩

instance : IsTrans FileInfo (fun a b => strLt b.Path a.Path = false) := by
  constructor
  intro a b c hab hbc
  cases hca : strLt c.Path a.Path with
  | false => rfl
  | true =>
    exfalso
    cases hbc' : strLt b.Path c.Path with
    | true =>
      have h3 := strLt_trans hbc' hca
      rw [h3] at hab
      exact Bool.noConfusion hab
    | false =>
      have heq : b.Path = c.Path := strLt_eq_of_not_lt hbc' hbc
      rw [heq, hca] at hab
      exact Bool.noConfusion hab

/-- The sort of pass 1 is ordered under the non-strict path relation. -/
theorem sortByPath_sorted (l : List FileInfo) :
    (sortByPath l).Pairwise (fun a b => strLt b.Path a.Path = false) :=
  List.sorted_insertionSort _ l

/-- With distinct current paths the sorted list is strictly increasing. -/
theorem sortByPath_pairwise_lt (l : List FileInfo) (h : (l.map FileInfo.Path).Nodup) :
    (sortByPath l).Pairwise pathLt := by
  have hs := sortByPath_sorted l
  have hperm : sortByPath l ~ l := List.perm_insertionSort _ l
  have hnd : ((sortByPath l).map FileInfo.Path).Nodup :=
    ((hperm.map FileInfo.Path).nodup_iff).mpr h
  have hne : (sortByPath l).Pairwise (fun a b => a.Path ≠ b.Path) :=
    List.pairwise_map.mp hnd
  exact (hs.and hne).imp (fun hab => strLt_of_not_gt_ne hab.1 hab.2)

/-! ### Completeness of the pass-1 merge on strictly sorted inputs -/

theorem pass1Inner_complete (l : FileInfo) (ls : List FileInfo)
    (f : List FileInfo → List DiffEvent × List FileInfo × List FileInfo)
    (hf : ∀ rs, rs.Pairwise pathLt → ∀ a b, a ∈ ls → b ∈ rs → qualifies a b = true →
      pairEvent a b ∈ (f rs).1)
    (hpl : ∀ x ∈ ls, pathLt l x) :
    ∀ rs, rs.Pairwise pathLt → ∀ a b, a ∈ l :: ls → b ∈ rs → qualifies a b = true →
      pairEvent a b ∈ (pass1Inner l ls f rs).1 := by
  intro rs
  induction rs with
  | nil =>
    intro _ a b _ hb _
    exact absurd hb (List.not_mem_nil b)
  | cons r rs ih =>
    intro hsorted a b ha hb hq
    have hsrs : rs.Pairwise pathLt := hsorted.of_cons
    have hrlt := (List.pairwise_cons.mp hsorted).1
    have hq' := hq
    simp only [qualifies, Bool.and_eq_true, Bool.not_eq_true', beq_iff_eq] at hq'
    have hpab : a.Path = b.Path := hq'.1.1.1
    simp only [pass1Inner]
    cases h1 : strLt l.Path r.Path with
    | true =>
      rcases List.mem_cons.mp ha with hae | hals
      · exfalso
        rcases List.mem_cons.mp hb with hbe | hbrs
        · rw [← hae, ← hbe, hpab] at h1
          rw [strLt_irrefl] at h1
          exact Bool.noConfusion h1
        · have h2 : strLt r.Path b.Path = true := hrlt b hbrs
          have h3 := strLt_trans h1 h2
          rw [← hae, hpab] at h3
          rw [strLt_irrefl] at h3
          exact Bool.noConfusion h3
      · exact hf (r :: rs) hsorted a b hals hb hq
    | false =>
      cases h2 : strLt r.Path l.Path with
      | true =>
        rcases List.mem_cons.mp hb with hbe | hbrs
        · exfalso
          rcases List.mem_cons.mp ha with hae | hals
          · rw [← hbe, ← hae, hpab] at h2
            rw [strLt_irrefl] at h2
            exact Bool.noConfusion h2
          · have h3 : strLt l.Path a.Path = true := hpl a hals
            have h4 := strLt_trans h2 h3
            rw [← hbe, hpab] at h4
            rw [strLt_irrefl] at h4
            exact Bool.noConfusion h4
        · exact ih hsrs a b ha hbrs hq
      | false =>
        have hplr : l.Path = r.Path := strLt_eq_of_not_lt h1 h2
        cases hg : (!l.IsDeleted && !r.IsDeleted && l.Checksum == r.Checksum) with
        | true =>
          rcases List.mem_cons.mp ha with hae | hals
          · rcases List.mem_cons.mp hb with hbe | hbrs
            · subst hae
              subst hbe
              cases ht : (a.Time != b.Time) <;> simp [pairEvent, ht]
            · exfalso
              have h3 : strLt r.Path b.Path = true := hrlt b hbrs
              rw [← hplr, ← hae, hpab] at h3
              rw [strLt_irrefl] at h3
              exact Bool.noConfusion h3
          · rcases List.mem_cons.mp hb with hbe | hbrs
            · exfalso
              have h3 : strLt l.Path a.Path = true := hpl a hals
              rw [hplr, ← hbe, hpab] at h3
              rw [strLt_irrefl] at h3
              exact Bool.noConfusion h3
            · have hmem := hf rs hsrs a b hals hbrs hq
              cases ht : (l.Time != r.Time) <;> exact List.mem_cons_of_mem _ hmem
        | false =>
          rcases List.mem_cons.mp ha with hae | hals
          · rcases List.mem_cons.mp hb with hbe | hbrs
            · exfalso
              rw [← hae, ← hbe] at hg
              simp [hq'.1.1.2, hq'.1.2, hq'.2] at hg
            · exfalso
              have h3 : strLt r.Path b.Path = true := hrlt b hbrs
              rw [← hplr, ← hae, hpab] at h3
              rw [strLt_irrefl] at h3
              exact Bool.noConfusion h3
          · rcases List.mem_cons.mp hb with hbe | hbrs
            · exfalso
              have h3 : strLt l.Path a.Path = true := hpl a hals
              rw [hplr, ← hbe, hpab] at h3
              rw [strLt_irrefl] at h3
              exact Bool.noConfusion h3
            · exact hf rs hsrs a b hals hbrs hq

theorem pass1Merge_complete : ∀ ls : List FileInfo, ls.Pairwise pathLt →
    ∀ rs, rs.Pairwise pathLt → ∀ a b, a ∈ ls → b ∈ rs → qualifies a b = true →
      pairEvent a b ∈ (pass1Merge ls rs).1 := by
  intro ls
  induction ls with
  | nil =>
    intro _ rs _ a b ha _ _
    exact absurd ha (List.not_mem_nil a)
  | cons l ls ih =>
    intro hsort rs hrs a b ha hb hq
    exact pass1Inner_complete l ls (pass1Merge ls)
      (fun rs' hrs' => ih hsort.of_cons rs' hrs')
      (List.pairwise_cons.mp hsort).1
      rs hrs a b ha hb hq

theorem pass1_complete (locl remote : List FileInfo)
    (hL : (locl.map FileInfo.Path).Nodup) (hR : (remote.map FileInfo.Path).Nodup) :
    ∀ a b, a ∈ locl → b ∈ remote → qualifies a b = true →
      pairEvent a b ∈ (matchRemoteToLocalUsingPathAndCurrentHashes locl remote).1 := by
  intro a b ha hb hq
  have ha' : a ∈ sortByPath locl := ((List.perm_insertionSort _ locl).mem_iff).mpr ha
  have hb' : b ∈ sortByPath remote := ((List.perm_insertionSort _ remote).mem_iff).mpr hb
  exact pass1Merge_complete _ (sortByPath_pairwise_lt locl hL)
    _ (sortByPath_pairwise_lt remote hR) a b ha' hb' hq

theorem pass1_sound_pairs (locl remote : List FileInfo) :
    ∀ e ∈ (matchRemoteToLocalUsingPathAndCurrentHashes locl remote).1,
      ∃ a b, a ∈ locl ∧ b ∈ remote ∧ qualifies a b = true ∧ e = pairEvent a b := by
  intro e he
  obtain ⟨a, b, ha, hb, hpath, hda, hdb, hcs, hev⟩ := pass1_events_sound locl remote e he
  refine ⟨a, b, ha, hb, ?_, hev⟩
  simp [qualifies, hpath, hda, hdb, hcs]

/-- C3, counterexample: local side `[fileD, fileF]` (a deleted and a
live file sharing path `"p"`), remote side `[fileG]`.  The stable sort
keeps `fileD` first, the merge consumes `fileD` against `fileG` on
equal paths without a match, and the qualifying pair `(fileF, fileG)`
is never emitted: pass 1 produces no events at all. -/
theorem C3_counterexample : ¬ claimC3 := by
  intro h
  have h1 := (h [fileD, fileF] [fileG]).1 fileF fileG (by decide) (by decide) (by decide)
  have h2 : (matchRemoteToLocalUsingPathAndCurrentHashes [fileD, fileF] [fileG]).1 = [] := by
    rfl
  rw [h2] at h1
  exact absurd h1 (List.not_mem_nil _)

/-- C3, amended: when the current paths are distinct within each side,
pass 1 emits exactly the expected callback of every qualifying pair
(`MetaDataChanged` when the times differ, `Unchanged` otherwise), emits
nothing else, and every other file of either side is passed through to
pass 2 (both residuals drained); without that hypothesis a deleted file
sharing a live file's path can occupy the merge slot and block the
qualifying pair. -/
theorem C3_theorem (locl remote : List FileInfo)
    (hL : (locl.map FileInfo.Path).Nodup) (hR : (remote.map FileInfo.Path).Nodup) :
    (∀ a b, a ∈ locl → b ∈ remote → qualifies a b = true →
      pairEvent a b ∈ (matchRemoteToLocalUsingPathAndCurrentHashes locl remote).1) ∧
    (∀ e ∈ (matchRemoteToLocalUsingPathAndCurrentHashes locl remote).1,
      ∃ a b, a ∈ locl ∧ b ∈ remote ∧ qualifies a b = true ∧ e = pairEvent a b) ∧
    evsLocals (matchRemoteToLocalUsingPathAndCurrentHashes locl remote).1 ++
      (matchRemoteToLocalUsingPathAndCurrentHashes locl remote).2.1 ~ locl ∧
    evsRemotes (matchRemoteToLocalUsingPathAndCurrentHashes locl remote).1 ++
      (matchRemoteToLocalUsingPathAndCurrentHashes locl remote).2.2 ~ remote :=
  ⟨pass1_complete locl remote hL hR, pass1_sound_pairs locl remote,
    pass1_locals locl remote, pass1_remotes locl remote⟩

/-- C3, witness: a single qualifying pair with equal times is emitted
as `Unchanged`. -/
theorem C3_witness :
    (([fileF] : List FileInfo).map FileInfo.Path).Nodup ∧
    (([fileG] : List FileInfo).map FileInfo.Path).Nodup ∧
    pairEvent fileF fileG ∈
      (matchRemoteToLocalUsingPathAndCurrentHashes [fileF] [fileG]).1 :=
  ⟨by decide, by decide,
    (C3_theorem [fileF] [fileG] (by decide) (by decide)).1 fileF fileG
      (by decide) (by decide) (by decide)⟩

/-! ## C5: diffing a repository against itself -/

def isUnchangedOrMeta : DiffEvent → Bool
  | .unchanged _ _ => true
  | .metaDataChanged _ _ => true
  | _ => false

/-- C5 as stated: `Diff R R` completes and emits only `Unchanged` and
`MetaDataChanged` callbacks, for every repository `R`. -/
def claimC5 : Prop :=
  ∀ R : List FileInfo, ∃ evs, Diff R R = .ok evs ∧ ∀ e ∈ evs, isUnchangedOrMeta e = true

/-- A deleted file that lived at `"a"` with content hash `"H"`. -/
def delA : FileInfo := ⟨[⟨"a", 1, 1, "H"⟩, ⟨"a", 0, 2, ""⟩]⟩

/-- A second deleted file, at `"b"`, with the same content hash. -/
def delB : FileInfo := ⟨[⟨"b", 1, 2, "H"⟩, ⟨"b", 0, 3, ""⟩]⟩

/-- A file whose history carries exactly one distinct non-empty
checksum, `h`. -/
def SingleHash (f : FileInfo) (h : String) : Prop :=
  h ≠ "" ∧ h ∈ f.history.map (·.checksum) ∧
    ∀ e ∈ f.history, e.checksum ≠ "" → e.checksum = h

instance (f : FileInfo) (h : String) : Decidable (SingleHash f h) :=
  inferInstanceAs (Decidable (h ≠ "" ∧ h ∈ f.history.map (fun e : FileEvent => e.checksum) ∧
    ∀ e ∈ f.history, e.checksum ≠ "" → e.checksum = h))

/-- The historical hash map of a list of single-hash files with
pairwise-distinct hashes: one singleton bucket per file, in order,
starting at index `k`. -/
def singletonBuckets (uh : FileInfo → String) : List FileInfo → Nat →
    List (String × List Nat)
  | [], _ => []
  | f :: fs, k => (uh f, [k]) :: singletonBuckets uh fs (k + 1)

/-! ### Pass 1 on two identical inputs -/

theorem pass1Merge_self : ∀ xs : List FileInfo,
    pass1Merge xs xs =
      ((xs.filter (fun f => !f.IsDeleted)).map (fun f => .unchanged f f),
        xs.filter (·.IsDeleted), xs.filter (·.IsDeleted)) := by
  intro xs
  induction xs with
  | nil => rfl
  | cons x xs ih =>
    show pass1Inner x xs (pass1Merge xs) (x :: xs) = _
    cases hd : x.IsDeleted <;>
      simp [pass1Inner, strLt_irrefl, hd, ih, List.filter_cons]

theorem pass1_self (R : List FileInfo) :
    matchRemoteToLocalUsingPathAndCurrentHashes R R =
      (((sortByPath R).filter (fun f => !f.IsDeleted)).map (fun f => .unchanged f f),
        (sortByPath R).filter (·.IsDeleted), (sortByPath R).filter (·.IsDeleted)) := by
  unfold matchRemoteToLocalUsingPathAndCurrentHashes
  rw [pass1Merge_self]

/-! ### Passes 2–4 on an all-deleted residue -/

theorem FilesToHashMap_deleted (l : List FileInfo) (h : ∀ f ∈ l, f.IsDeleted = true) :
    FilesToHashMap l = [] := by
  have key : ∀ (l' : List FileInfo) (m : List (String × List FileInfo)),
      (∀ f ∈ l', f.IsDeleted = true) →
      l'.foldl (fun m f => if f.IsDeleted then m else bucketInsert m f.Checksum f) m = m := by
    intro l'
    induction l' with
    | nil => intro m _; rfl
    | cons f fs ih =>
      intro m hall
      have hf := hall f (List.mem_cons_self _ _)
      simp only [List.foldl_cons, hf, if_true]
      exact ih m (fun g hg => hall g (List.mem_cons_of_mem _ hg))
  exact key l [] h

theorem pass2_self_deleted (ds : List FileInfo) (h : ∀ f ∈ ds, f.IsDeleted = true) :
    matchRemoteToLocalUsingCurrentHashes ds ds = ([], ds, ds) := by
  have hf : ds.filter (·.IsDeleted) = ds := List.filter_eq_self.mpr (fun f hf => h f hf)
  simp only [matchRemoteToLocalUsingCurrentHashes, FilesToHashMap_deleted ds h, pass2Go,
    List.flatMap_nil, hf, List.append_nil]

theorem pass3_self_deleted (ds : List FileInfo) (h : ∀ f ∈ ds, f.IsDeleted = true) :
    matchCurrentRemoteToHistoricalLocalUsingHashes ds ds = ([], ds, ds) := by
  have hf : ds.filter (·.IsDeleted) = ds := List.filter_eq_self.mpr (fun f hf => h f hf)
  simp only [matchCurrentRemoteToHistoricalLocalUsingHashes, FilesToHashMap_deleted ds h,
    pass3Go, reduceOption_map_some', hf, List.append_nil]

theorem pass4_self_deleted (ds : List FileInfo) (h : ∀ f ∈ ds, f.IsDeleted = true) :
    matchCurrentLocalToHistoricalRemoteUsingHashed ds ds = ([], ds, ds) := by
  have hf : ds.filter (·.IsDeleted) = ds := List.filter_eq_self.mpr (fun f hf => h f hf)
  simp only [matchCurrentLocalToHistoricalRemoteUsingHashed, FilesToHashMap_deleted ds h,
    pass4Go, reduceOption_map_some', hf, List.append_nil]

/-! ### The historical hash map of single-hash files -/

theorem idxInsertOnce_fresh (m : List (String × List Nat)) (k : String) (i : Nat)
    (h : lookupKey m k = none) : idxInsertOnce m k i = m ++ [(k, [i])] := by
  induction m with
  | nil => rfl
  | cons q rest ih =>
    obtain ⟨k', is⟩ := q
    by_cases hk : k' = k
    · rw [lookupKey, if_pos hk] at h
      exact Option.noConfusion h
    · rw [lookupKey, if_neg hk] at h
      rw [idxInsertOnce, if_neg hk, ih h]
      rfl

theorem idxInsertOnce_self (m : List (String × List Nat)) (k : String) (i : Nat)
    (h : lookupKey m k = some [i]) : idxInsertOnce m k i = m := by
  induction m with
  | nil => exact Option.noConfusion h
  | cons q rest ih =>
    obtain ⟨k', is⟩ := q
    by_cases hk : k' = k
    · rw [lookupKey, if_pos hk] at h
      have his : is = [i] := by simpa using h
      rw [idxInsertOnce, if_pos hk, if_pos (by simp [his])]
    · rw [lookupKey, if_neg hk] at h
      rw [idxInsertOnce, if_neg hk, ih h]

theorem histFoldPost (h : String) (i : Nat) :
    ∀ (events : List FileEvent) (m : List (String × List Nat)),
      (∀ e ∈ events, e.checksum ≠ "" → e.checksum = h) →
      lookupKey m h = some [i] →
      histInsertEvents m i events = m := by
  intro events
  induction events with
  | nil => intro m _ _; rfl
  | cons e es ih =>
    intro m hall hm
    simp only [histInsertEvents, List.foldl_cons]
    by_cases he : e.checksum = ""
    · rw [if_pos he]
      exact ih m (fun e' h1 => hall e' (List.mem_cons_of_mem _ h1)) hm
    · rw [if_neg he, hall e (List.mem_cons_self _ _) he, idxInsertOnce_self m h i hm]
      exact ih m (fun e' h1 => hall e' (List.mem_cons_of_mem _ h1)) hm

theorem histFoldPre (h : String) (i : Nat) :
    ∀ (events : List FileEvent) (m : List (String × List Nat)),
      (∀ e ∈ events, e.checksum ≠ "" → e.checksum = h) →
      lookupKey m h = none →
      histInsertEvents m i events =
        (if events.any (fun e => e.checksum != "") then m ++ [(h, [i])] else m) := by
  intro events
  induction events with
  | nil => intro m _ _; rfl
  | cons e es ih =>
    intro m hall hm
    simp only [histInsertEvents, List.foldl_cons, List.any_cons]
    by_cases he : e.checksum = ""
    · rw [if_pos he]
      have := ih m (fun e' h1 => hall e' (List.mem_cons_of_mem _ h1)) hm
      simp only [histInsertEvents] at this
      rw [this]
      simp [he]
    · have hch : e.checksum = h := hall e (List.mem_cons_self _ _) he
      have hne2 : ¬ h = "" := hch ▸ he
      simp only [hch, idxInsertOnce_fresh m h i hm]
      rw [if_neg hne2]
      have hself : lookupKey (m ++ [(h, [i])]) h = some [i] := by
        rw [lookupKey_append_single, hm, if_pos rfl]
      have := histFoldPost h i es (m ++ [(h, [i])])
        (fun e' h1 => hall e' (List.mem_cons_of_mem _ h1)) hself
      simp only [histInsertEvents] at this
      rw [this]
      simp [hne2]

theorem histInsertEvents_single (f : FileInfo) (h : String) (i : Nat)
    (m : List (String × List Nat)) (hs : SingleHash f h) (hfresh : lookupKey m h = none) :
    histInsertEvents m i f.history = m ++ [(h, [i])] := by
  rw [histFoldPre h i f.history m hs.2.2 hfresh]
  have hany : f.history.any (fun e => e.checksum != "") = true := by
    obtain ⟨e, he, hce⟩ := List.mem_map.mp hs.2.1
    refine List.any_eq_true.mpr ⟨e, he, ?_⟩
    simp [hce]
    exact hs.1
  simp [hany]

theorem lookupKey_append_none {β : Type} (m : List (String × β)) (k k' : String) (v : β)
    (h1 : lookupKey m k' = none) (h2 : k ≠ k') :
    lookupKey (m ++ [(k, v)]) k' = none := by
  rw [lookupKey_append_single, h1, if_neg h2]

theorem histMapGo_single (uh : FileInfo → String) :
    ∀ (ds : List FileInfo) (k : Nat) (m : List (String × List Nat)),
      (∀ f ∈ ds, SingleHash f (uh f)) →
      (ds.map uh).Nodup →
      (∀ f ∈ ds, lookupKey m (uh f) = none) →
      histMapGo ds k m = m ++ singletonBuckets uh ds k := by
  intro ds
  induction ds with
  | nil => intro k m _ _ _; simp [histMapGo, singletonBuckets]
  | cons d rest ih =>
    intro k m hsh hnd hfresh
    have hhead : histInsertEvents m k d.history = m ++ [(uh d, [k])] :=
      histInsertEvents_single d (uh d) k m (hsh d (List.mem_cons_self _ _))
        (hfresh d (List.mem_cons_self _ _))
    obtain ⟨hhd, htl⟩ : uh d ∉ rest.map uh ∧ (rest.map uh).Nodup := by
      rw [List.map_cons, List.nodup_cons] at hnd
      exact hnd
    have hne : ∀ g ∈ rest, uh d ≠ uh g := by
      intro g hg heq
      exact hhd (heq ▸ List.mem_map.mpr ⟨g, hg, rfl⟩)
    have hrec := ih (k + 1) (m ++ [(uh d, [k])])
      (fun g hg => hsh g (List.mem_cons_of_mem _ hg)) htl
      (fun g hg => lookupKey_append_none m (uh d) (uh g) [k]
        (hfresh g (List.mem_cons_of_mem _ hg)) (hne g hg))
    simp only [histMapGo, hhead, hrec, singletonBuckets, List.append_assoc,
      List.singleton_append]

theorem lookup_singletonBuckets (uh : FileInfo → String) :
    ∀ (ds : List FileInfo) (k : Nat), (ds.map uh).Nodup →
      ∀ (n : Nat) (f : FileInfo), ds.get? n = some f →
        lookupKey (singletonBuckets uh ds k) (uh f) = some [k + n] := by
  intro ds
  induction ds with
  | nil => intro k _ n f hn; exact Option.noConfusion hn
  | cons d rest ih =>
    intro k hnd n f hn
    cases n with
    | zero =>
      have hdf : d = f := by simpa using hn
      subst hdf
      simp [singletonBuckets, lookupKey]
    | succ n =>
      obtain ⟨hhd, htl⟩ : uh d ∉ rest.map uh ∧ (rest.map uh).Nodup := by
        rw [List.map_cons, List.nodup_cons] at hnd
        exact hnd
      have hf : f ∈ rest := List.get?_mem hn
      have hne : uh d ≠ uh f := by
        intro heq
        exact hhd (heq ▸ List.mem_map.mpr ⟨f, hf, rfl⟩)
      have hrec := ih (k + 1) htl n f hn
      rw [singletonBuckets, lookupKey, if_neg hne, hrec]
      have : k + 1 + n = k + (n + 1) := by omega
      rw [this]

/-! ### The pass-5 loop over singleton buckets -/

theorem getD_len_append : ∀ (P : List (Option FileInfo)) (x : Option FileInfo)
    (xs : List (Option FileInfo)), (P ++ x :: xs).getD P.length none = x := by
  intro P
  induction P with
  | nil => intro x xs; rfl
  | cons p P ih => intro x xs; exact ih x xs

theorem set_len_append : ∀ (P : List (Option FileInfo)) (x : Option FileInfo)
    (xs : List (Option FileInfo)), (P ++ x :: xs).set P.length none = P ++ none :: xs := by
  intro P
  induction P with
  | nil => intro x xs; rfl
  | cons p P ih => intro x xs; exact congrArg (fun t => p :: t) (ih x xs)

theorem reduceOption_allNone : ∀ l : List (Option FileInfo),
    (∀ x ∈ l, x = none) → l.reduceOption = [] := by
  intro l
  induction l with
  | nil => intro _; rfl
  | cons x xs ih =>
    intro h
    have hx : x = none := h x (List.mem_cons_self _ _)
    subst hx
    rw [List.reduceOption_cons_of_none]
    exact ih (fun y hy => h y (List.mem_cons_of_mem _ hy))

theorem pass5Go_single (uh : FileInfo → String) :
    ∀ (ds : List FileInfo) (P : List (Option FileInfo)) (rmap : List (String × List Nat)),
      (∀ f ∈ ds, f.IsDeleted = true) →
      (∀ x ∈ P, x = none) →
      (∀ (n : Nat) (f : FileInfo), ds.get? n = some f →
        lookupKey rmap (uh f) = some [P.length + n]) →
      ∃ la ra,
        pass5Go (singletonBuckets uh ds P.length) rmap
            (P ++ ds.map some) (P ++ ds.map some) =
          .ok (ds.map (fun f => .unchanged f f), la, ra) ∧
        (∀ x ∈ la, x = none) ∧ (∀ x ∈ ra, x = none) := by
  intro ds
  induction ds with
  | nil =>
    intro P rmap _ hP _
    exact ⟨P, P, by simp [singletonBuckets, pass5Go], hP, hP⟩
  | cons d rest ih =>
    intro P rmap hdel hP hlk
    have hP' : ∀ x ∈ P ++ [none], x = (none : Option FileInfo) := by
      intro x hx
      rcases List.mem_append.mp hx with hx | hx
      · exact hP x hx
      · simpa using hx
    obtain ⟨la, ra, hrec, hla, hra⟩ := ih (P ++ [none]) rmap
      (fun f hf => hdel f (List.mem_cons_of_mem _ hf)) hP'
      (by
        intro n f hn
        have h1 := hlk (n + 1) f hn
        have h2 : (P ++ [none]).length + n = P.length + (n + 1) := by
          simp
          omega
        rw [h2]
        exact h1)
    have hl0 : lookupKey rmap (uh d) = some [P.length] := by
      have h0 := hlk 0 d rfl
      simpa using h0
    have hdd : d.IsDeleted = true := hdel d (List.mem_cons_self _ _)
    have hstep : pass5Step [P.length] (some [P.length])
        (P ++ some d :: rest.map some) (P ++ some d :: rest.map some) =
        .ok ([.unchanged d d], P ++ none :: rest.map some, P ++ none :: rest.map some) := by
      simp only [pass5Step]
      rw [getD_len_append]
      simp [hdd, set_len_append]
    have hlen : (P ++ [none]).length = P.length + 1 := by simp
    have harr : P ++ none :: rest.map some = (P ++ [none]) ++ rest.map some := by simp
    rw [hlen] at hrec
    rw [← harr] at hrec
    refine ⟨la, ra, ?_, hla, hra⟩
    simp only [singletonBuckets, List.map_cons, pass5Go, hl0, hstep, hrec,
      List.singleton_append]

theorem pass5_self (uh : FileInfo → String) (ds : List FileInfo)
    (hdel : ∀ f ∈ ds, f.IsDeleted = true)
    (hsh : ∀ f ∈ ds, SingleHash f (uh f))
    (hnd : (ds.map uh).Nodup) :
    matchUsingHistoricalHashes ds ds =
      .ok (ds.map (fun f => .unchanged f f), [], []) := by
  have hmap : filesToHistoricHashMap ds = singletonBuckets uh ds 0 := by
    unfold filesToHistoricHashMap
    rw [histMapGo_single uh ds 0 [] hsh hnd (fun f _ => rfl)]
    rfl
  obtain ⟨la, ra, hrun, hla, hra⟩ := pass5Go_single uh ds [] (singletonBuckets uh ds 0)
    hdel (by simp)
    (fun n f hn => by simpa using lookup_singletonBuckets uh ds 0 hnd n f hn)
  simp only [List.nil_append, List.length_nil] at hrun
  unfold matchUsingHistoricalHashes
  rw [hmap]
  simp only [hrun]
  rw [reduceOption_allNone la hla, reduceOption_allNone ra hra]

/-- C5, counterexample: two deleted files sharing the historical hash
`"H"`.  All of `R` reaches pass 5 on both sides, the `"H"` bucket holds
two indices on each side, and the engine emits a single `ConflictHash`
naming all four slots — not an `Unchanged`/`MetaDataChanged` stream. -/
theorem C5_counterexample : ¬ claimC5 := by
  intro h
  obtain ⟨evs, heq, hall⟩ := h [delA, delB]
  have hc : Diff [delA, delB] [delA, delB] =
      .ok [.conflictHash [some delA, some delB] [some delA, some delB]] := by rfl
  rw [hc] at heq
  have hevs : evs = [.conflictHash [some delA, some delB] [some delA, some delB]] := by
    injection heq with h'
    exact h'.symm
  subst hevs
  exact absurd (hall _ (List.mem_cons_self _ _)) (by decide)

/-- C5, amended: if every deleted file of `R` carries exactly one
distinct historical checksum and those checksums are pairwise distinct
across the deleted files, `Diff R R` completes and emits only
`Unchanged` callbacks (`MetaDataChanged` cannot occur against oneself);
without that hypothesis a shared historical hash yields `ConflictHash`
and a deleted file with two historical hashes kills the run. -/
theorem C5_theorem (R : List FileInfo) (uh : FileInfo → String)
    (hsh : ∀ f ∈ R, f.IsDeleted = true → SingleHash f (uh f))
    (hnd : ((R.filter (·.IsDeleted)).map uh).Nodup) :
    ∃ evs, Diff R R = .ok evs ∧ ∀ e ∈ evs, isUnchangedOrMeta e = true := by
  have hdel : ∀ f ∈ (sortByPath R).filter (·.IsDeleted), f.IsDeleted = true := by
    intro f hf
    exact (List.mem_filter.mp hf).2
  have hmemR : ∀ f ∈ (sortByPath R).filter (·.IsDeleted), f ∈ R := by
    intro f hf
    exact (List.perm_insertionSort _ R).subset (List.mem_filter.mp hf).1
  have hsh' : ∀ f ∈ (sortByPath R).filter (·.IsDeleted), SingleHash f (uh f) :=
    fun f hf => hsh f (hmemR f hf) (hdel f hf)
  have hperm : (sortByPath R).filter (·.IsDeleted) ~ R.filter (·.IsDeleted) :=
    (List.perm_insertionSort _ R).filter _
  have hnd' : (((sortByPath R).filter (·.IsDeleted)).map uh).Nodup :=
    ((hperm.map uh).nodup_iff).mpr hnd
  have h5 := pass5_self uh ((sortByPath R).filter (·.IsDeleted)) hdel hsh' hnd'
  have hDiff : Diff R R =
      .ok (((sortByPath R).filter (fun f => !f.IsDeleted)).map (fun f => .unchanged f f) ++
        ((sortByPath R).filter (·.IsDeleted)).map (fun f => .unchanged f f)) := by
    simp only [Diff, pass1_self, pass2_self_deleted _ hdel, pass3_self_deleted _ hdel,
      pass4_self_deleted _ hdel, h5, matchUsingPath, filesToPathMap, List.foldl_nil,
      pass6Go, terminalEvents, List.map_nil, List.filter_nil, List.append_nil,
      List.nil_append]
  refine ⟨_, hDiff, ?_⟩
  intro e he
  rcases List.mem_append.mp he with h1 | h1 <;>
    obtain ⟨f, _, rfl⟩ := List.mem_map.mp h1 <;> rfl

/-- C5, witness for the amended theorem: a repository holding one
deleted single-hash file self-diffs to `Unchanged` callbacks only. -/
theorem C5_witness :
    (∀ f ∈ ([exDelH] : List FileInfo), f.IsDeleted = true → SingleHash f "H") ∧
    ∃ evs, Diff [exDelH] [exDelH] = .ok evs ∧ ∀ e ∈ evs, isUnchangedOrMeta e = true :=
  ⟨by decide, C5_theorem [exDelH] (fun _ => "H") (by decide) (by decide)⟩

end Boffin
